import Mathlib

set_option autoImplicit false

namespace MiniRdbms

/-! Shallow embedding of the mini-rdbms repository (rdbms.py, sql_parser.py,
database_engine.py).  Python strings are modelled as `List Char`, Python
scalar values as the tagged union `Value`, Python dicts as insertion-ordered
association lists, and the in-place mutations of `Table` methods as explicit
state passing.  A raised `ValueError` is modelled by an `Except.error`
result carried next to the state reached at the raise point. -/

abbrev Str := List Char

/-- Python runtime values stored in rows and indexes: `None`, `int`, `float`
(modelled as a rational; no claim depends on IEEE rounding), `str`. -/
inductive Value where
  | NullV : Value
  | IntV : Int → Value
  | FloatV : ℚ → Value
  | TextV : Str → Value
  deriving DecidableEq, Repr

open Value

/-- Python `==` on the values above: `1 == 1.0` is true, everything else is
by tag and content.  Used for dict keys, index keys and condition matching. -/
def pyEq : Value → Value → Bool
  | NullV, NullV => true
  | IntV a, IntV b => a == b
  | FloatV a, FloatV b => a == b
  | IntV a, FloatV b => (a : ℚ) == b
  | FloatV a, IntV b => a == (b : ℚ)
  | TextV a, TextV b => a == b
  | _, _ => false

theorem pyEq_refl (v : Value) : pyEq v v = true := by
  cases v <;> simp [pyEq]

theorem pyEq_symm {a b : Value} (h : pyEq a b = true) : pyEq b a = true := by
  cases a <;> cases b <;> simp_all [pyEq]

theorem pyEq_trans {a b c : Value} (h1 : pyEq a b = true) (h2 : pyEq b c = true) :
    pyEq a c = true := by
  cases a <;> cases b <;> cases c <;> simp_all [pyEq]

/-! ### Python dicts as insertion-ordered association lists (string keys)

`dget` is `d[k]` / `d.get(k)`, `dset` is `d[k] = v` (value replaced in place,
insertion position kept, new keys appended), `dhas` is `k in d`. -/

def dget {α : Type} (k : Str) : List (Str × α) → Option α
  | [] => none
  | (k', v) :: rest => if k' = k then some v else dget k rest

def dset {α : Type} (k : Str) (v : α) : List (Str × α) → List (Str × α)
  | [] => [(k, v)]
  | (k', v') :: rest => if k' = k then (k, v) :: rest else (k', v') :: dset k v rest

def dhas {α : Type} (k : Str) (d : List (Str × α)) : Bool := (dget k d).isSome

def dkeys {α : Type} (d : List (Str × α)) : List Str := d.map Prod.fst

/-! ### Schema types (rdbms.py: DataType, Constraint, Column) -/

inductive DataType where
  | INT | TEXT | FLOAT
  deriving DecidableEq, Repr

inductive Constraint where
  | PRIMARY_KEY | UNIQUE | NONE
  deriving DecidableEq, Repr

structure Column where
  name : Str
  data_type : DataType
  constraint : Constraint
  nullable : Bool
  deriving DecidableEq, Repr

/-- `Column.validate_value`: `None` is valid iff nullable; INT accepts int,
TEXT accepts str, FLOAT accepts int or float (`isinstance(value, (int, float))`). -/
def validate_value (c : Column) (v : Value) : Bool :=
  match v with
  | NullV => c.nullable
  | IntV _ => c.data_type = DataType.INT || c.data_type = DataType.FLOAT
  | FloatV _ => c.data_type = DataType.FLOAT
  | TextV _ => c.data_type = DataType.TEXT

/-! ### Index (rdbms.py: Index)

A Python dict from column value to list of row ids.  Keys are compared with
Python `==` (`pyEq`); the dict never holds two `==`-equal keys.  Row ids are
stored as the `Value`s read from `row['_row_id']`. -/

abbrev Index := List (Value × List Value)

/-- `Index.find`: the id list stored under the first (only) key `==` to `v`,
else `[]`. -/
def idxFind : Index → Value → List Value
  | [], _ => []
  | (k, ids) :: rest, v => if pyEq k v then ids else idxFind rest v

/-- `Index.add`: append `rid` to the entry of `v`, creating the entry (at the
end, as dict insertion does) if no `==`-equal key exists. -/
def idxAdd : Index → Value → Value → Index
  | [], v, rid => [(v, [rid])]
  | (k, ids) :: rest, v, rid =>
    if pyEq k v then (k, ids ++ [rid]) :: rest else (k, ids) :: idxAdd rest v rid

/-- Python `list.remove`: drop the first element `==` to `rid`. -/
def pyListRemove : List Value → Value → List Value
  | [], _ => []
  | x :: rest, rid => if pyEq x rid then rest else x :: pyListRemove rest rid

/-- `Index.remove`: if `v` is a key and `rid` is in its list, remove the first
occurrence of `rid`, deleting the entry if its list becomes empty. -/
def idxRemove : Index → Value → Value → Index
  | [], _, _ => []
  | (k, ids) :: rest, v, rid =>
    if pyEq k v then
      if ids.any (fun x => pyEq x rid) then
        match pyListRemove ids rid with
        | [] => rest
        | ids' => (k, ids') :: rest
      else (k, ids) :: rest
    else (k, ids) :: idxRemove rest v rid

/-! ### Table state (rdbms.py: Table)

A row is the Python dict holding the internal `'_row_id'` key next to one
entry per schema column; all `Table` methods below pass the state explicitly
instead of mutating `self`. -/

abbrev Row := List (Str × Value)

abbrev Values := List (Str × Value)

def rowIdKey : Str := "_row_id".toList

structure Table where
  name : Str
  columns : List (Str × Column)
  rows : List Row
  indexes : List (Str × Index)
  next_row_id : Int
  deriving DecidableEq, Repr

/-- `Table.__init__`: `columns` is the dict comprehension `{col.name: col}`;
an (empty) index is created for every PRIMARY_KEY or UNIQUE column. -/
def mkTable (name : Str) (cols : List Column) : Table :=
  { name := name
    columns := cols.foldl (fun d c => dset c.name c d) []
    rows := []
    indexes := cols.foldl (fun d c =>
      if c.constraint = Constraint.PRIMARY_KEY ∨ c.constraint = Constraint.UNIQUE then
        dset c.name ([] : Index) d
      else d) []
    next_row_id := 1 }

def rowVal (r : Row) (c : Str) : Value := (dget c r).getD NullV

def rowId (r : Row) : Value := rowVal r rowIdKey

/-- `self.indexes[c]` (the table creates an index for every constrained
column, so the default is unreachable on states built by `mkTable`). -/
def getIdx (t : Table) (c : Str) : Index := (dget c t.indexes).getD []

def setIdx (t : Table) (c : Str) (idx : Index) : Table :=
  { t with indexes := dset c idx t.indexes }

/-! ### insert_row -/

/-- The validation loop shared verbatim by `insert_row` and `update_rows`:
first unknown column or type-invalid value raises. -/
def checkTypes (t : Table) : Values → Except Str Unit
  | [] => .ok ()
  | (c, v) :: rest =>
    match dget c t.columns with
    | none => .error ("Unknown column: ".toList ++ c)
    | some col =>
      if validate_value col v then checkTypes t rest
      else .error ("Invalid value for column ".toList ++ c)

/-- The constraint test applied to one column against the index state `idx`
(in `insert_row` the current index; in `update_rows` the index after the row's
own old entry was removed).  `none` means the checks pass. -/
def constraintCheck (col : Column) (c : Str) (v : Value) (idx : Index) : Option Str :=
  if col.constraint = Constraint.PRIMARY_KEY then
    if v = NullV then some ("Primary key cannot be null: ".toList ++ c)
    else if idxFind idx v ≠ [] then some ("Primary key violation: ".toList ++ c)
    else none
  else if col.constraint = Constraint.UNIQUE ∧ v ≠ NullV then
    if idxFind idx v ≠ [] then some ("Unique constraint violation: ".toList ++ c)
    else none
  else none

/-- `insert_row`'s constraint loop over the supplied values. -/
def insertCheckConstraints (t : Table) : Values → Except Str Unit
  | [] => .ok ()
  | (c, v) :: rest =>
    match dget c t.columns with
    | none => insertCheckConstraints t rest
    | some col =>
      match constraintCheck col c v (getIdx t c) with
      | some e => .error e
      | none => insertCheckConstraints t rest

/-- `row = {'_row_id': next}; for col_name in self.columns: row[col_name] =
values.get(col_name, None)`. -/
def buildRow (t : Table) (vs : Values) : Row :=
  t.columns.foldl (fun r e => dset e.1 ((dget e.1 vs).getD NullV) r)
    [(rowIdKey, IntV t.next_row_id)]

/-- `insert_row`: validate, check constraints, then append the materialized
row, bump `next_row_id`, and add every supplied indexed value to its index.
All raises happen before any state is touched, so the error branches return
the unchanged table. -/
def insertIndexes (vs : Values) (rid : Int) (ind : List (Str × Index)) :
    List (Str × Index) :=
  vs.foldl (fun ind e =>
    match dget e.1 ind with
    | some idx => dset e.1 (idxAdd idx e.2 (IntV rid)) ind
    | none => ind) ind

def insert_row (t : Table) (vs : Values) : Table × Except Str Int :=
  match checkTypes t vs with
  | .error e => (t, .error e)
  | .ok _ =>
    match insertCheckConstraints t vs with
    | .error e => (t, .error e)
    | .ok _ =>
      let rid := t.next_row_id
      let t' : Table :=
        { t with
          rows := t.rows ++ [buildRow t vs]
          next_row_id := t.next_row_id + 1
          indexes := insertIndexes vs rid t.indexes }
      (t', .ok rid)

/-! ### find_rows -/

/-- One row matches the conditions dict: every condition key present in the
row with a `==`-equal value. -/
def matchRow (r : Row) (conds : Values) : Bool :=
  conds.all (fun e =>
    match dget e.1 r with
    | none => false
    | some v => pyEq v e.2)

/-- `find_rows`: an empty (falsy) conditions dict returns all rows, otherwise
a linear scan in row order. -/
def find_rows (t : Table) (conds : Values) : List Row :=
  if conds = [] then t.rows else t.rows.filter (fun r => matchRow r conds)

/-! ### update_rows

`rows_to_update` is a snapshot of references into `self.rows` taken before
any mutation; since the row dicts are distinct objects we model the snapshot
by the list of matched positions, and in-place mutation by `List.set`. -/

def matchedPositions (t : Table) (conds : Values) : List Nat :=
  if conds = [] then List.range t.rows.length
  else (List.range t.rows.length).filter (fun i => matchRow (t.rows.getD i []) conds)

/-- One column of the `update_rows` inner loop, on the row at position `p`
with id `rid`: skip an unchanged value; otherwise remove the old value from
the column's index (if indexed), re-check the constraint against the reduced
index, then write the new value into the row and index it.  The `Option Str`
is the raised error, and the returned table keeps the mutations made before
the raise (`self` was mutated in place). -/
def updStep (t : Table) (p : Nat) (rid : Value) (c : Str) (nv : Value)
    (col : Column) : Table × Option Str :=
  let r := t.rows.getD p []
  let old := rowVal r c
  if pyEq old nv then (t, none)
  else
    let t1 := if dhas c t.indexes then setIdx t c (idxRemove (getIdx t c) old rid) else t
    match constraintCheck col c nv (getIdx t1 c) with
    | some e => (t1, some e)
    | none =>
      let t2 := { t1 with rows := t1.rows.set p (dset c nv r) }
      let t3 := if dhas c t2.indexes then setIdx t2 c (idxAdd (getIdx t2 c) nv rid) else t2
      (t3, none)

/-- The per-row column loop of `update_rows` (the unknown-column fallthrough
is unreachable after validation). -/
def updateCols : Table → Nat → Value → Values → Table × Except Str Unit
  | t, _, _, [] => (t, .ok ())
  | t, p, rid, (c, nv) :: rest =>
    match dget c t.columns with
    | none => updateCols t p rid rest
    | some col =>
      match updStep t p rid c nv col with
      | (t', some e) => (t', .error e)
      | (t', none) => updateCols t' p rid rest

/-- The row loop of `update_rows`: per matched row, re-validate all new
values, run the column loop, then count the row.  Errors abort with the
state reached so far. -/
def updateRowsAux : Table → List Nat → Values → Int → Table × Except Str Int
  | t, [], _, count => (t, .ok count)
  | t, p :: ps, upds, count =>
    match checkTypes t upds with
    | .error e => (t, .error e)
    | .ok _ =>
      let rid := rowId (t.rows.getD p [])
      match updateCols t p rid upds with
      | (t', .error e) => (t', .error e)
      | (t', .ok _) => updateRowsAux t' ps upds (count + 1)

def update_rows (t : Table) (conds upds : Values) : Table × Except Str Int :=
  updateRowsAux t (matchedPositions t conds) upds 0

/-! ### delete_rows -/

/-- Python dict `==` between two rows: same key set, `==`-equal values. -/
def rowEq (r1 r2 : Row) : Bool :=
  (r1.all fun e =>
    match dget e.1 r2 with
    | some v => pyEq e.2 v
    | none => false) &&
  (r2.all fun e => dhas e.1 r1)

/-- Python `list.remove(row)`: drop the first list element `==` to the row. -/
def removeFirstRow : List Row → Row → List Row
  | [], _ => []
  | x :: rest, r => if rowEq x r then rest else x :: removeFirstRow rest r

/-- The loop body of `delete_rows` for one snapshot row: remove the row's
current value from every index that has its column, then remove the row. -/
def deleteOneRow (t : Table) (r : Row) : Table :=
  let t1 : Table :=
    { t with indexes := t.indexes.map (fun e =>
        if dhas e.1 r then (e.1, idxRemove e.2 (rowVal r e.1) (rowId r)) else e) }
  { t1 with rows := removeFirstRow t1.rows r }

def deleteRowsAux : Table → List Row → Int → Table × Int
  | t, [], count => (t, count)
  | t, r :: rest, count => deleteRowsAux (deleteOneRow t r) rest (count + 1)

/-- `delete_rows`: snapshot the matched rows, then remove each from the
indexes and from storage. -/
def delete_rows (t : Table) (conds : Values) : Table × Int :=
  deleteRowsAux t (find_rows t conds) 0

/-! ### Executor: SELECT and JOIN (database_engine.py) -/

def starStr : Str := "*".toList

/-- Column projection: keep only the requested keys present verbatim in the
row, in requested order. -/
def projectRow (cols : List Str) (r : Row) : Row :=
  cols.foldl (fun acc c =>
    match dget c r with
    | some v => dset c v acc
    | none => acc) []

/-- `_execute_select` without join: matching rows, then projection unless the
requested columns are exactly `['*']` (in which case the row dicts are
returned unchanged, `'_row_id'` included). -/
def selectData (t : Table) (cols : List Str) (conds : Values) : List Row :=
  let rows := find_rows t conds
  if cols = [starStr] then rows else rows.map (projectRow cols)

/-- Python `col.split('.')` (split on every dot). -/
def splitDots : Str → List Str
  | [] => [[]]
  | '.' :: rest => [] :: splitDots rest
  | ch :: rest =>
    match splitDots rest with
    | t :: ts => (ch :: t) :: ts
    | [] => [[ch]]

/-- One `key = value` conjunct of a join/where clause evaluated against a
(left row, right row) pair, as in `_execute_join_select`: a `table.column`
key checks the named side with `dict.get` (absent matches only a null
literal); a key with two or more dots raises the unpacking `ValueError`;
an unqualified key disqualifies the pair if it is present with an unequal
value on either side. -/
def checkOneCond (lname rname : Str) (lrow rrow : Row) (c : Str) (v : Value) :
    Except Str Bool :=
  if c.contains '.' then
    match splitDots c with
    | [tn, cn] =>
      if tn = lname then
        .ok (match dget cn lrow with
          | some w => pyEq w v
          | none => pyEq NullV v)
      else if tn = rname then
        .ok (match dget cn rrow with
          | some w => pyEq w v
          | none => pyEq NullV v)
      else .ok true
    | _ => .error "too many values to unpack".toList
  else
    .ok ((!dhas c lrow || pyEq (rowVal lrow c) v) &&
         (!dhas c rrow || pyEq (rowVal rrow c) v))

/-- Conjunction of condition conjuncts over a row pair (an empty dict is
falsy in the source and skips the check entirely, which coincides with the
empty conjunction). -/
def checkConds (lname rname : Str) (lrow rrow : Row) : Values → Except Str Bool
  | [] => .ok true
  | (c, v) :: rest =>
    match checkOneCond lname rname lrow rrow c v with
    | .error e => .error e
    | .ok false => .ok false
    | .ok true => checkConds lname rname lrow rrow rest

/-- Merge a surviving pair: every non-`'_row_id'` field of the left row under
key `lname ++ "." ++ field`, then the right row likewise. -/
def mergeRows (lname rname : Str) (lrow rrow : Row) : Row :=
  let m1 := lrow.foldl (fun acc e =>
    if e.1 = rowIdKey then acc else dset (lname ++ '.' :: e.1) e.2 acc) []
  rrow.foldl (fun acc e =>
    if e.1 = rowIdKey then acc else dset (rname ++ '.' :: e.1) e.2 acc) m1

def joinInner (lname rname : Str) (jconds wconds : Values) (lrow : Row) :
    List Row → Except Str (List Row)
  | [] => .ok []
  | rrow :: rest =>
    match checkConds lname rname lrow rrow jconds with
    | .error e => .error e
    | .ok false => joinInner lname rname jconds wconds lrow rest
    | .ok true =>
      match checkConds lname rname lrow rrow wconds with
      | .error e => .error e
      | .ok false => joinInner lname rname jconds wconds lrow rest
      | .ok true =>
        match joinInner lname rname jconds wconds lrow rest with
        | .error e => .error e
        | .ok rs => .ok (mergeRows lname rname lrow rrow :: rs)

def joinOuter (lname rname : Str) (jconds wconds : Values) (rrows : List Row) :
    List Row → Except Str (List Row)
  | [] => .ok []
  | lrow :: rest =>
    match joinInner lname rname jconds wconds lrow rrows with
    | .error e => .error e
    | .ok rs =>
      match joinOuter lname rname jconds wconds rrows rest with
      | .error e => .error e
      | .ok rs' => .ok (rs ++ rs')

/-- `_execute_join_select`: nested-loop inner join over the two full row
sets, join predicate then WHERE predicate per pair, merge, then projection
unless the requested columns are exactly `['*']`. -/
def joinSelectData (lname rname : Str) (tL tR : Table) (cols : List Str)
    (wconds jconds : Values) : Except Str (List Row) :=
  match joinOuter lname rname jconds wconds (find_rows tR []) (find_rows tL []) with
  | .error e => .error e
  | .ok joined => .ok (if cols = [starStr] then joined else joined.map (projectRow cols))

/-! ### Parser: value literals and condition clauses (sql_parser.py) -/

/-- Python `str.strip()` with no argument: drop leading and trailing
whitespace. -/
def trimList (s : Str) : Str :=
  ((s.dropWhile Char.isWhitespace).reverse.dropWhile Char.isWhitespace).reverse

def toUpperList (s : Str) : Str := s.map Char.toUpper

/-- Python `conditions_str.split('AND')`: split on every occurrence of the
literal (case-sensitive) substring `AND`, leftmost-first, non-overlapping. -/
def splitAnd : Str → List Str
  | [] => [[]]
  | 'A' :: 'N' :: 'D' :: rest => [] :: splitAnd rest
  | c :: rest =>
    match splitAnd rest with
    | t :: ts => (c :: t) :: ts
    | [] => [[c]]

/-- Python `part.split('=', 1)`: the text before and after the first `'='`;
`none` when the part has no `'='` (`'=' not in part`). -/
def splitFirstEq : Str → Option (Str × Str)
  | [] => none
  | '=' :: rest => some ([], rest)
  | c :: rest =>
    match splitFirstEq rest with
    | some (a, b) => some (c :: a, b)
    | none => none

/-- `value_str.startswith("'") and value_str.endswith("'")` (true for the
one-character string `'`, as in Python). -/
def isQuoted (s : Str) : Bool :=
  s.head? == some '\'' && s.getLast? == some '\''

/-- `.replace("''", "'")`: left-to-right, non-overlapping. -/
def unescapeQuotes : Str → Str
  | '\'' :: '\'' :: rest => '\'' :: unescapeQuotes rest
  | c :: rest => c :: unescapeQuotes rest
  | [] => []

/-- A run of ASCII digits with single underscores allowed between digits
(Python numeric literal grammar); returns accumulated value, digit count and
the unconsumed remainder.  Must be entered at a digit. -/
def digitsAux : Nat → Nat → Str → Nat × Nat × Str
  | acc, cnt, [] => (acc, cnt, [])
  | acc, cnt, c :: rest =>
    if c.isDigit then digitsAux (10 * acc + (c.toNat - 48)) (cnt + 1) rest
    else if c = '_' then
      match rest with
      | d :: rest' =>
        if d.isDigit then digitsAux (10 * acc + (d.toNat - 48)) (cnt + 1) rest'
        else (acc, cnt, c :: rest)
      | [] => (acc, cnt, [c])
    else (acc, cnt, c :: rest)

def parseDigits (s : Str) : Option (Nat × Nat × Str) :=
  match s with
  | c :: _ => if c.isDigit then some (digitsAux 0 0 s) else none
  | [] => none

def parseSign : Str → Int × Str
  | '+' :: rest => (1, rest)
  | '-' :: rest => (-1, rest)
  | s => (1, s)

/-- Python `int(s)` on an already-stripped string: optional sign then a
digit run covering the whole string. -/
def pyParseInt (s : Str) : Option Int :=
  let (sg, rest) := parseSign s
  match parseDigits rest with
  | some (n, _, []) => some (sg * n)
  | _ => none

/-- Optional exponent suffix `('e'|'E') [sign] digits` consuming the whole
remainder; an empty remainder means exponent 0. -/
def parseExp (r : Str) : Option Int :=
  match r with
  | [] => some 0
  | c :: rest =>
    if c = 'e' ∨ c = 'E' then
      let (sg, r2) := parseSign rest
      match parseDigits r2 with
      | some (n, _, []) => some (sg * n)
      | _ => none
    else none

def finishFloat (sg : Int) (ip fp : Nat) (fc : Nat) (r : Str) : Option ℚ :=
  match parseExp r with
  | none => none
  | some e =>
    let mant : ℚ := (ip : ℚ) + (fp : ℚ) / (10 : ℚ) ^ fc
    some ((sg : ℚ) * (if 0 ≤ e then mant * (10 : ℚ) ^ e.toNat else mant / (10 : ℚ) ^ (-e).toNat))

/-- Python `float(s)` on an already-stripped string:
`[sign] (digits [. [digits]] | . digits) [(e|E) [sign] digits]`, value taken
exactly as a rational (`inf`/`nan` spellings contain no `'.'` and so never
reach the float branch of `_parse_value`). -/
def pyParseFloat (s : Str) : Option ℚ :=
  let (sg, r1) := parseSign s
  match parseDigits r1 with
  | some (ip, _, r2) =>
    match r2 with
    | '.' :: r3 =>
      match parseDigits r3 with
      | some (fp, fc, r4) => finishFloat sg ip fp fc r4
      | none => finishFloat sg ip 0 0 r3
    | _ => finishFloat sg ip 0 0 r2
  | none =>
    match r1 with
    | '.' :: r3 =>
      match parseDigits r3 with
      | some (fp, fc, r4) => finishFloat sg 0 fp fc r4
      | none => none
    | _ => none

/-- `SQLParser._parse_value`: strip, then `NULL` (case-insensitive) → null;
single-quoted → text with `''` unescaped; containing `'.'` → float parse,
else int parse; numeric failure falls back to the raw (stripped) literal as
text. -/
def parseValue (s : Str) : Value :=
  let v := trimList s
  if toUpperList v = "NULL".toList then NullV
  else if isQuoted v then TextV (unescapeQuotes ((v.drop 1).dropLast))
  else if v.contains '.' then
    match pyParseFloat v with
    | some q => FloatV q
    | none => TextV v
  else
    match pyParseInt v with
    | some n => IntV n
    | none => TextV v

/-- The conjunct loop of `_parse_conditions`: a part without `'='` raises
`Invalid condition`; otherwise the part splits at its first `'='` into a
stripped key and a parsed value, assigned into the conditions dict. -/
def parseCondParts : List Str → Values → Except Str Values
  | [], acc => .ok acc
  | p :: rest, acc =>
    match splitFirstEq p with
    | none => .error ("Invalid condition: ".toList ++ p)
    | some (k, v) => parseCondParts rest (dset (trimList k) (parseValue v) acc)

/-- `SQLParser._parse_conditions`: split on the substring `AND`, strip each
part, then process each conjunct in order.  (`_parse_value` restrips, so
passing the unstripped right-hand side is equivalent to the source's
`value.strip()`.) -/
def parseConditions (s : Str) : Except Str Values :=
  parseCondParts ((splitAnd s).map trimList) []

/-! ### Operation sequences

`Reach cols allowErr insP t`: the table states reachable from a freshly
created table over the schema `cols` by calling the three mutating `Table`
methods.  `allowErr` admits update calls that raise (keeping the state at
the raise point, as the mutated `self` does); `insP` restricts which value
dicts may be inserted.  Value/update dicts carry the key-uniqueness every
Python dict has. -/

def WFcols (cols : List Column) : Prop :=
  (cols.map Column.name).Nodup ∧ rowIdKey ∉ cols.map Column.name

def pkSupplied (cols : List Column) (vs : Values) : Prop :=
  ∀ col ∈ cols, col.constraint = Constraint.PRIMARY_KEY → col.name ∈ vs.map Prod.fst

inductive Reach (cols : List Column) (allowErr : Bool) (insP : Values → Prop) :
    Table → Prop where
  | create (nm : Str) (hwf : WFcols cols) : Reach cols allowErr insP (mkTable nm cols)
  | insertOk {t t' : Table} {vs : Values} {rid : Int} :
      Reach cols allowErr insP t → (vs.map Prod.fst).Nodup → insP vs →
      insert_row t vs = (t', .ok rid) → Reach cols allowErr insP t'
  | insertErr {t t' : Table} {vs : Values} {e : Str} :
      allowErr = true → Reach cols allowErr insP t →
      insert_row t vs = (t', .error e) → Reach cols allowErr insP t'
  | updateOk {t t' : Table} {conds upds : Values} {n : Int} :
      Reach cols allowErr insP t → (upds.map Prod.fst).Nodup →
      update_rows t conds upds = (t', .ok n) → Reach cols allowErr insP t'
  | updateErr {t t' : Table} {conds upds : Values} {e : Str} :
      allowErr = true → Reach cols allowErr insP t → (upds.map Prod.fst).Nodup →
      update_rows t conds upds = (t', .error e) → Reach cols allowErr insP t'
  | delete {t t' : Table} {conds : Values} {n : Int} :
      Reach cols allowErr insP t →
      delete_rows t conds = (t', n) → Reach cols allowErr insP t'

/-- Sequences of successful operations only. -/
abbrev ReachOk (cols : List Column) : Table → Prop :=
  Reach cols false (fun _ => True)

/-! ### Association-list lemmas -/

theorem dget_dset_same {α : Type} (k : Str) (v : α) (d : List (Str × α)) :
    dget k (dset k v d) = some v := by
  induction d with
  | nil => simp [dget, dset]
  | cons e rest ih =>
    by_cases h : e.1 = k
    · simp [dset, h, dget]
    · simp [dset, h, dget, ih]

theorem dget_dset_ne {α : Type} {k k' : Str} (v : α) (d : List (Str × α))
    (h : k' ≠ k) : dget k' (dset k v d) = dget k' d := by
  induction d with
  | nil => simp [dget, dset, Ne.symm h]
  | cons e rest ih =>
    rcases e with ⟨ek, ev⟩
    by_cases he : ek = k
    · subst he
      simp [dset, dget, Ne.symm h]
    · simp [dset, he, dget, ih]

@[simp] theorem dkeys_nil {α : Type} : dkeys ([] : List (Str × α)) = [] := rfl

@[simp] theorem dkeys_cons {α : Type} (e : Str × α) (d : List (Str × α)) :
    dkeys (e :: d) = e.1 :: dkeys d := rfl

theorem dkeys_dset_of_mem {α : Type} {k : Str} (v : α) {d : List (Str × α)}
    (h : k ∈ dkeys d) : dkeys (dset k v d) = dkeys d := by
  induction d with
  | nil => simp at h
  | cons e rest ih =>
    rcases e with ⟨ek, ev⟩
    by_cases he : ek = k
    · subst he
      simp [dset]
    · have h' : k ∈ dkeys rest := by
        rcases List.mem_cons.mp h with h | h
        · exact absurd h.symm he
        · exact h
      simp [dset, he, ih h']

theorem dkeys_dset_of_not_mem {α : Type} {k : Str} (v : α) {d : List (Str × α)}
    (h : k ∉ dkeys d) : dkeys (dset k v d) = dkeys d ++ [k] := by
  induction d with
  | nil => simp [dset]
  | cons e rest ih =>
    rcases e with ⟨ek, ev⟩
    simp at h
    push_neg at h
    simp [dset, Ne.symm h.1, ih h.2]

theorem dget_eq_none_of_not_mem {α : Type} {k : Str} {d : List (Str × α)}
    (h : k ∉ dkeys d) : dget k d = none := by
  induction d with
  | nil => simp [dget]
  | cons e rest ih =>
    rcases e with ⟨ek, ev⟩
    simp at h
    push_neg at h
    simp [dget, Ne.symm h.1, ih h.2]

theorem mem_dkeys_of_dget {α : Type} {k : Str} {d : List (Str × α)} {v : α}
    (h : dget k d = some v) : k ∈ dkeys d := by
  by_contra hk
  simp [dget_eq_none_of_not_mem hk] at h

theorem dhas_iff {α : Type} {k : Str} {d : List (Str × α)} :
    dhas k d = true ↔ ∃ v, dget k d = some v := by
  simp [dhas, Option.isSome_iff_exists]

theorem dhas_eq_mem_dkeys {α : Type} (k : Str) (d : List (Str × α)) :
    dhas k d = true ↔ k ∈ dkeys d := by
  constructor
  · intro h
    rcases dhas_iff.mp h with ⟨v, hv⟩
    exact mem_dkeys_of_dget hv
  · intro h
    apply dhas_iff.mpr
    induction d with
    | nil => simp at h
    | cons e rest ih =>
      rcases e with ⟨ek, ev⟩
      by_cases he : ek = k
      · exact ⟨ev, by simp [dget, he]⟩
      · have h' : k ∈ dkeys rest := by
          rcases List.mem_cons.mp h with h | h
          · exact absurd h.symm he
          · exact h
        rcases ih h' with ⟨v, hv⟩
        exact ⟨v, by simp [dget, he, hv]⟩

/-! ### Index lemmas -/

theorem idxFind_congr {v w : Value} (idx : Index) (h : pyEq v w = true) :
    idxFind idx v = idxFind idx w := by
  induction idx with
  | nil => rfl
  | cons e rest ih =>
    rcases e with ⟨k, ids⟩
    by_cases hk : pyEq k v = true
    · simp [idxFind, hk, pyEq_trans hk h]
    · have hk' : ¬ pyEq k w = true := fun hw => hk (pyEq_trans hw (pyEq_symm h))
      simp [idxFind, hk, hk', ih]

theorem idxFind_add_self {v w : Value} (idx : Index) (rid : Value)
    (h : pyEq w v = true) :
    idxFind (idxAdd idx v rid) w = idxFind idx w ++ [rid] := by
  induction idx with
  | nil => simp [idxAdd, idxFind, pyEq_symm h]
  | cons e rest ih =>
    rcases e with ⟨k, ids⟩
    by_cases hk : pyEq k v = true
    · simp [idxAdd, hk, idxFind, pyEq_trans hk (pyEq_symm h)]
    · have hk' : ¬ pyEq k w = true := fun hw => hk (pyEq_trans hw h)
      simp [idxAdd, hk, idxFind, hk', ih]

theorem idxFind_add_other {v w : Value} (idx : Index) (rid : Value)
    (h : pyEq w v = false) :
    idxFind (idxAdd idx v rid) w = idxFind idx w := by
  induction idx with
  | nil =>
    have : ¬ pyEq v w = true := fun hw => by simp [pyEq_symm hw] at h
    simp [idxAdd, idxFind, this]
  | cons e rest ih =>
    rcases e with ⟨k, ids⟩
    by_cases hk : pyEq k v = true
    · have hk' : ¬ pyEq k w = true := fun hw => by
        have := pyEq_trans (pyEq_symm hw) hk
        simp [this] at h
      simp [idxAdd, hk, idxFind, hk']
    · by_cases hw : pyEq k w = true
      · simp [idxAdd, hk, idxFind, hw]
      · simp [idxAdd, hk, idxFind, hw, ih]

theorem pyListRemove_sublist (ids : List Value) (rid : Value) :
    (pyListRemove ids rid).Sublist ids := by
  induction ids with
  | nil => simp [pyListRemove]
  | cons x rest ih =>
    by_cases hx : pyEq x rid = true
    · simp [pyListRemove, hx]
    · simpa [pyListRemove, hx] using List.Sublist.cons₂ x ih

theorem mem_pyListRemove_of_ne {ids : List Value} {id' rid : Value}
    (h : id' ∈ ids) (hne : pyEq id' rid = false) : id' ∈ pyListRemove ids rid := by
  induction ids with
  | nil => simp at h
  | cons x rest ih =>
    by_cases hx : pyEq x rid = true
    · rcases List.mem_cons.mp h with h | h
      · subst h; simp [hx] at hne
      · simpa [pyListRemove, hx] using h
    · rcases List.mem_cons.mp h with h | h
      · simp [pyListRemove, hx, h]
      · simp [pyListRemove, hx, ih h]

theorem pyListRemove_no_pyEq {ids : List Value} {rid : Value}
    (hpw : ids.Pairwise (fun a b => pyEq a b = false)) :
    ∀ x ∈ pyListRemove ids rid, pyEq x rid = false := by
  induction ids with
  | nil => simp [pyListRemove]
  | cons y rest ih =>
    rcases List.pairwise_cons.mp hpw with ⟨hy, hrest⟩
    by_cases hx : pyEq y rid = true
    · intro x hxm
      simp only [pyListRemove, hx, if_true] at hxm
      by_contra hc
      have hxr : pyEq x rid = true := by
        cases h' : pyEq x rid
        · exact absurd h' hc
        · rfl
      have : pyEq y x = true := pyEq_trans hx (pyEq_symm hxr)
      simp [hy x hxm] at this
    · intro x hxm
      simp only [pyListRemove, hx, if_false] at hxm
      rcases List.mem_cons.mp hxm with h | h
      · subst h
        cases h' : pyEq x rid
        · rfl
        · exact absurd h' hx
      · exact ih hrest x h

/-- Every entry of `idxRemove` refines an entry of the original index: same
key, id list a sublist of the original. -/
theorem mem_idxRemove {idx : Index} {v rid : Value} :
    ∀ e' ∈ idxRemove idx v rid, ∃ ids, (e'.1, ids) ∈ idx ∧ e'.2.Sublist ids := by
  induction idx with
  | nil => simp [idxRemove]
  | cons e rest ih =>
    rcases e with ⟨k, ids⟩
    intro e' he'
    by_cases hk : pyEq k v = true
    · simp only [idxRemove, hk, if_true] at he'
      by_cases hin : ids.any (fun x => pyEq x rid) = true
      · simp only [hin, if_true] at he'
        rcases hrem : pyListRemove ids rid with _ | ⟨i0, irest⟩
        · rw [hrem] at he'
          exact ⟨e'.2, ⟨List.mem_cons_of_mem _ he', List.Sublist.refl _⟩⟩
        · rw [hrem] at he'
          rcases List.mem_cons.mp he' with h | h
          · subst h
            exact ⟨ids, ⟨List.mem_cons_self _ _, by rw [← hrem]; exact pyListRemove_sublist ids rid⟩⟩
          · exact ⟨e'.2, ⟨List.mem_cons_of_mem _ h, List.Sublist.refl _⟩⟩
      · simp only [hin, if_false] at he'
        exact ⟨e'.2, ⟨he', List.Sublist.refl _⟩⟩
    · simp only [idxRemove, hk, if_false] at he'
      rcases List.mem_cons.mp he' with h | h
      · subst h
        exact ⟨ids, ⟨List.mem_cons_self _ _, List.Sublist.refl _⟩⟩
      · rcases ih e' h with ⟨ids', h1, h2⟩
        exact ⟨ids', ⟨List.mem_cons_of_mem _ h1, h2⟩⟩

/-- Ids surviving a removal were in the same key's entry before, provided the
entry's ids were pairwise distinct under `==`. -/
theorem mem_idxFind_remove {idx : Index} {v rid w id' : Value}
    (h : id' ∈ idxFind idx w) (hne : pyEq id' rid = false) :
    id' ∈ idxFind (idxRemove idx v rid) w := by
  induction idx with
  | nil => simp [idxFind] at h
  | cons e rest ih =>
    rcases e with ⟨k, ids⟩
    by_cases hkv : pyEq k v = true
    · by_cases hkw : pyEq k w = true
      · simp only [idxFind, hkw, if_true] at h
        by_cases hin : ids.any (fun x => pyEq x rid) = true
        · have hmem := mem_pyListRemove_of_ne h hne
          rcases hrem : pyListRemove ids rid with _ | ⟨i0, irest⟩
          · rw [hrem] at hmem; simp at hmem
          · simp only [idxRemove, hkv, if_true, hin, hrem, idxFind, hkw]
            rw [← hrem]
            exact hmem
        · simp [idxRemove, hkv, hin, idxFind, hkw, h]
      · simp only [idxFind, hkw, if_false] at h
        by_cases hin : ids.any (fun x => pyEq x rid) = true
        · rcases hrem : pyListRemove ids rid with _ | ⟨i0, irest⟩
          · simpa [idxRemove, hkv, hin, hrem] using h
          · simpa [idxRemove, hkv, hin, hrem, idxFind, hkw] using h
        · simpa [idxRemove, hkv, hin, idxFind, hkw] using h
    · by_cases hkw : pyEq k w = true
      · simp only [idxFind, hkw, if_true] at h
        simp [idxRemove, hkv, idxFind, hkw, h]
      · simp only [idxFind, hkw, if_false] at h
        simp [idxRemove, hkv, idxFind, hkw, ih h]

/-- Every entry of `idxAdd` is an old entry, the first `==`-matching entry
with `rid` appended, or the fresh singleton entry. -/
theorem mem_idxAdd {idx : Index} {v rid : Value} :
    ∀ e' ∈ idxAdd idx v rid,
      e' ∈ idx ∨
      (∃ ids, (e'.1, ids) ∈ idx ∧ pyEq e'.1 v = true ∧ e'.2 = ids ++ [rid]) ∨
      (e'.1 = v ∧ e'.2 = [rid]) := by
  induction idx with
  | nil =>
    intro e' he'
    simp only [idxAdd, List.mem_singleton] at he'
    subst he'
    exact Or.inr (Or.inr ⟨rfl, rfl⟩)
  | cons e rest ih =>
    rcases e with ⟨k, ids⟩
    intro e' he'
    by_cases hk : pyEq k v = true
    · simp only [idxAdd, hk, if_true] at he'
      rcases List.mem_cons.mp he' with h | h
      · subst h
        exact Or.inr (Or.inl ⟨ids, List.mem_cons_self _ _, hk, rfl⟩)
      · exact Or.inl (List.mem_cons_of_mem _ h)
    · simp only [idxAdd, hk, if_false] at he'
      rcases List.mem_cons.mp he' with h | h
      · subst h
        exact Or.inl (List.mem_cons_self _ _)
      · rcases ih e' h with h' | h' | h'
        · exact Or.inl (List.mem_cons_of_mem _ h')
        · rcases h' with ⟨ids', h1, h2, h3⟩
          exact Or.inr (Or.inl ⟨ids', List.mem_cons_of_mem _ h1, h2, h3⟩)
        · exact Or.inr (Or.inr h')

/-- The keys of `idxAdd`: unchanged when a `==`-equal key exists, otherwise
the new key is appended (and it is `==`-distinct from all old keys). -/
theorem idxAdd_keys (idx : Index) (v rid : Value) :
    ((idxAdd idx v rid).map Prod.fst) = idx.map Prod.fst ∨
    ((idxAdd idx v rid).map Prod.fst = idx.map Prod.fst ++ [v] ∧
      ∀ k ∈ idx.map Prod.fst, pyEq k v = false) := by
  induction idx with
  | nil => exact Or.inr ⟨by simp [idxAdd], by simp⟩
  | cons e rest ih =>
    rcases e with ⟨k, ids⟩
    by_cases hk : pyEq k v = true
    · exact Or.inl (by simp [idxAdd, hk])
    · rcases ih with h | ⟨h1, h2⟩
      · exact Or.inl (by simp [idxAdd, hk, h])
      · refine Or.inr ⟨by simp [idxAdd, hk, h1], ?_⟩
        intro k' hk'
        rcases List.mem_cons.mp hk' with h | h
        · subst h
          cases hc : pyEq k' v
          · rfl
          · exact absurd hc hk
        · exact h2 k' h

/-- `idxFind` reads the first `==`-matching entry. -/
theorem idxFind_mem_entry {idx : Index} {v : Value} (h : idxFind idx v ≠ []) :
    ∃ k, (k, idxFind idx v) ∈ idx ∧ pyEq k v = true := by
  induction idx with
  | nil => simp [idxFind] at h
  | cons e rest ih =>
    rcases e with ⟨k, ids⟩
    by_cases hk : pyEq k v = true
    · exact ⟨k, by simp [idxFind, hk], hk⟩
    · simp only [idxFind, hk, if_false] at h ⊢
      rcases ih h with ⟨k', h1, h2⟩
      exact ⟨k', List.mem_cons_of_mem _ h1, h2⟩

/-- Under pairwise `==`-distinct keys, an entry whose key `==`-matches `v` is
what `idxFind` returns for `v`. -/
theorem idxFind_of_entry {idx : Index}
    (hpw : (idx.map Prod.fst).Pairwise (fun a b => pyEq a b = false))
    {k : Value} {ids : List Value} {v : Value}
    (hm : (k, ids) ∈ idx) (hk : pyEq k v = true) : idxFind idx v = ids := by
  induction idx with
  | nil => simp at hm
  | cons e rest ih =>
    rcases e with ⟨k0, ids0⟩
    simp only [List.map_cons, List.pairwise_cons] at hpw
    rcases hpw with ⟨h0, hrest⟩
    by_cases hk0 : pyEq k0 v = true
    · rcases List.mem_cons.mp hm with h | h
      · have h2 : ids = ids0 := congrArg Prod.snd h
        simp [idxFind, hk0, h2]
      · have hkk : pyEq k0 k = true := pyEq_trans hk0 (pyEq_symm hk)
        have := h0 k (List.mem_map.mpr ⟨(k, ids), h, rfl⟩)
        simp_all
    · rcases List.mem_cons.mp hm with h | h
      · have hke : k = k0 := congrArg Prod.fst h
        subst hke
        exact absurd hk hk0
      · simp only [idxFind, hk0, if_false]
        exact ih hrest h

/-! ### Derived definitions used by the claim statements -/

/-- A sequence of inserts, `none` as soon as one raises. -/
def insertAll : Table → List Values → Option Table
  | t, [] => some t
  | t, vs :: rest =>
    match insert_row t vs with
    | (t', Except.ok _) => insertAll t' rest
    | (_, Except.error _) => none

/-- The row `insert_row` materializes over schema `cols` for row id `rid`:
the internal id first, then every schema column with the supplied value or
null. -/
def mkFullRow (cols : List Column) (rid : Int) (vs : Values) : Row :=
  (rowIdKey, Value.IntV rid) ::
    cols.map (fun col => (col.name, (dget col.name vs).getD Value.NullV))

/-- The index/row consistency invariant maintained by successful operation
sequences (together with the structural facts the induction needs). -/
structure Inv (t : Table) : Prop where
  nextPos : 1 ≤ t.next_row_id
  colsNodup : (dkeys t.columns).Nodup
  noRowIdCol : rowIdKey ∉ dkeys t.columns
  idxIffCon : ∀ c : Str, (∃ idx, dget c t.indexes = some idx) ↔
    (∃ col, dget c t.columns = some col ∧
      (col.constraint = Constraint.PRIMARY_KEY ∨ col.constraint = Constraint.UNIQUE))
  rowsKeys : ∀ r ∈ t.rows, dkeys r = rowIdKey :: dkeys t.columns
  idsWF : ∀ r ∈ t.rows, ∃ n : Int, dget rowIdKey r = some (Value.IntV n) ∧
    1 ≤ n ∧ n < t.next_row_id
  idsNodup : (t.rows.map rowId).Nodup
  keysPW : ∀ c idx, dget c t.indexes = some idx →
    (idx.map Prod.fst).Pairwise (fun a b => pyEq a b = false)
  entryPW : ∀ c idx, dget c t.indexes = some idx → ∀ v ids, (v, ids) ∈ idx →
    ids.Pairwise (fun a b => pyEq a b = false)
  noStale : ∀ c idx, dget c t.indexes = some idx → ∀ v ids, (v, ids) ∈ idx →
    ∀ id ∈ ids, ∃ r ∈ t.rows, rowId r = id ∧ pyEq (rowVal r c) v = true
  presence : ∀ c idx, dget c t.indexes = some idx → ∀ r ∈ t.rows,
    rowVal r c ≠ Value.NullV → rowId r ∈ idxFind idx (rowVal r c)
  uniqEntry : ∀ c idx, dget c t.indexes = some idx → ∀ v ids, (v, ids) ∈ idx →
    v ≠ Value.NullV → ids.length ≤ 1

/-- The primary-key non-nullness property of C4 (as amended). -/
def PKInv (t : Table) : Prop :=
  ∀ r ∈ t.rows, ∀ c col, dget c t.columns = some col →
    col.constraint = Constraint.PRIMARY_KEY → rowVal r c ≠ Value.NullV

/-! Concrete schemas and states used by counterexamples and witnesses. -/

def colIntPK (nm : Str) : Column := ⟨nm, DataType.INT, Constraint.PRIMARY_KEY, false⟩

def colIntU (nm : Str) : Column := ⟨nm, DataType.INT, Constraint.UNIQUE, true⟩

def colIntN (nm : Str) : Column := ⟨nm, DataType.INT, Constraint.NONE, true⟩

/-- A table with an INT primary key `pk` and an INT unique column `u`. -/
def tabPKU : Table := mkTable "t".toList [colIntPK "pk".toList, colIntU "u".toList]

/-- `tabPKU` after inserting a row supplying only `pk`. -/
def exOmitU : Table := (insert_row tabPKU [("pk".toList, Value.IntV 1)]).1

/-- `tabPKU` after `(pk 1, u 10)`, `(pk 2, u 20)`. -/
def exTwoRows : Table :=
  (insert_row (insert_row tabPKU
    [("pk".toList, Value.IntV 1), ("u".toList, Value.IntV 10)]).1
    [("pk".toList, Value.IntV 2), ("u".toList, Value.IntV 20)]).1

/-- `exTwoRows` after the failing `UPDATE ... SET u = 20 WHERE pk = 1`
(unique violation raised after the row's old `u` index entry was removed). -/
def exAfterFailedUpdate : Table :=
  (update_rows exTwoRows [("pk".toList, Value.IntV 1)] [("u".toList, Value.IntV 20)]).1

/-- `exAfterFailedUpdate` after inserting `(pk 3, u 10)` — accepted, although
the live first row also holds `u = 10`. -/
def exDupU : Table :=
  (insert_row exAfterFailedUpdate
    [("pk".toList, Value.IntV 3), ("u".toList, Value.IntV 10)]).1

/-- A table whose only schema column is literally named `_row_id`. -/
def tabShadow : Table := mkTable "t".toList [colIntN rowIdKey]

def exShadow : Table := (insert_row tabShadow [(rowIdKey, Value.IntV 5)]).1

/-- A one-INT-column table with one row `a = 1`. -/
def exOneRow : Table :=
  (insert_row (mkTable "t".toList [colIntN "a".toList]) [("a".toList, Value.IntV 1)]).1

/-- A table with only an INT primary key, after an insert supplying nothing. -/
def exOmitPK : Table := (insert_row (mkTable "t".toList [colIntPK "id".toList]) []).1

theorem idxRemove_keys_sublist (idx : Index) (v rid : Value) :
    ((idxRemove idx v rid).map Prod.fst).Sublist (idx.map Prod.fst) := by
  induction idx with
  | nil => simp [idxRemove]
  | cons e rest ih =>
    rcases e with ⟨k, ids⟩
    by_cases hk : pyEq k v = true
    · by_cases hin : ids.any (fun x => pyEq x rid) = true
      · rcases hrem : pyListRemove ids rid with _ | ⟨i0, irest⟩
        · simp only [idxRemove, hk, if_true, hin, hrem]
          exact List.sublist_cons_self k _
        · simp only [idxRemove, hk, if_true, hin, hrem, List.map_cons]
          exact List.Sublist.cons₂ k (List.Sublist.refl _)
      · simp [idxRemove, hk, hin]
    · simp only [idxRemove, hk, if_false, List.map_cons]
      exact List.Sublist.cons₂ k ih

/-! ### Insert atomicity -/

theorem insert_row_error_state (t : Table) (vs : Values) {e : Str}
    (h : (insert_row t vs).2 = Except.error e) : (insert_row t vs).1 = t := by
  unfold insert_row at *
  cases h1 : checkTypes t vs with
  | error e1 => simp [h1]
  | ok u =>
    cases h2 : insertCheckConstraints t vs with
    | error e2 => simp [h1, h2]
    | ok u2 =>
      rw [h1, h2] at h
      simp at h

/-- C10: `insert_row` is atomic on failure — when it raises any of its
errors, the resulting table state (rows, indexes, next row id) is exactly
the state before the call. -/
theorem C10_insert_atomic (t : Table) (vs : Values) {e : Str}
    (h : (insert_row t vs).2 = Except.error e) : (insert_row t vs).1 = t :=
  insert_row_error_state t vs h

/-- Witness for C10 at a concrete failing insert (unknown column). -/
theorem C10_insert_atomic_witness :
    (insert_row tabPKU [("zz".toList, Value.IntV 1)]).2 =
      Except.error ("Unknown column: zz".toList) ∧
    (insert_row tabPKU [("zz".toList, Value.IntV 1)]).1 = tabPKU :=
  ⟨rfl, C10_insert_atomic _ _ rfl⟩

/-! ### Counterexample states evaluated -/

/-- C1 counterexample: after one insert, `SELECT *` (no WHERE, no JOIN)
returns the stored row dict unchanged — the internal `'_row_id'` key is
present in the returned mapping, contradicting "never present". -/
theorem C1_counterexample :
    dhas rowIdKey ((selectData exOneRow [starStr] []).getD 0 []) = true ∧
    selectData exOneRow [starStr] [] =
      [[(rowIdKey, Value.IntV 1), ("a".toList, Value.IntV 1)]] :=
  ⟨rfl, rfl⟩

/-- C2 counterexample: one successful insert that omits the UNIQUE column
`u` leaves a live row whose current `u` value (null) has no index entry
containing the row's identifier. -/
theorem C2_counterexample :
    exOmitU.rows.length = 1 ∧
    rowVal (exOmitU.rows.getD 0 []) "u".toList = Value.NullV ∧
    dget "u".toList exOmitU.indexes = some [] ∧
    idxFind (getIdx exOmitU "u".toList) (rowVal (exOmitU.rows.getD 0 []) "u".toList) = [] :=
  ⟨rfl, rfl, rfl, rfl⟩

/-- C3 counterexample: after a failed multi-column-free update (unique
violation raised after the matched row's old index entry was removed), a
later insert re-uses the still-live value — two live rows hold the equal
non-null value 10 in the UNIQUE column `u`. -/
theorem C3_counterexample :
    (dget "u".toList exDupU.columns).map Column.constraint = some Constraint.UNIQUE ∧
    (update_rows exTwoRows [("pk".toList, Value.IntV 1)] [("u".toList, Value.IntV 20)]).2 =
      Except.error ("Unique constraint violation: u".toList) ∧
    (insert_row exAfterFailedUpdate
      [("pk".toList, Value.IntV 3), ("u".toList, Value.IntV 10)]).2 = Except.ok 3 ∧
    exDupU.rows.length = 3 ∧
    rowVal (exDupU.rows.getD 0 []) "u".toList = Value.IntV 10 ∧
    rowVal (exDupU.rows.getD 2 []) "u".toList = Value.IntV 10 ∧
    rowId (exDupU.rows.getD 0 []) ≠ rowId (exDupU.rows.getD 2 []) :=
  ⟨rfl, rfl, rfl, rfl, rfl, rfl, by decide⟩

/-- C4 counterexample: an insert supplying no value for the PRIMARY_KEY
column succeeds and leaves a live row holding null in that column. -/
theorem C4_counterexample :
    (dget "id".toList exOmitPK.columns).map Column.constraint =
      some Constraint.PRIMARY_KEY ∧
    (insert_row (mkTable "t".toList [colIntPK "id".toList]) []).2 = Except.ok 1 ∧
    exOmitPK.rows.length = 1 ∧
    rowVal (exOmitPK.rows.getD 0 []) "id".toList = Value.NullV :=
  ⟨rfl, rfl, rfl, rfl⟩

/-- C9 counterexample: on a table whose schema contains a column literally
named `_row_id`, the schema column shares the dict slot with the internal
identifier, so an UPDATE of that column changes the row's identifier while
the row stays live. -/
theorem C9_counterexample :
    exShadow.rows.length = 1 ∧
    rowId (exShadow.rows.getD 0 []) = Value.IntV 5 ∧
    (update_rows exShadow [] [(rowIdKey, Value.IntV 99)]).2 = Except.ok 1 ∧
    (update_rows exShadow [] [(rowIdKey, Value.IntV 99)]).1.rows.length = 1 ∧
    rowId ((update_rows exShadow [] [(rowIdKey, Value.IntV 99)]).1.rows.getD 0 []) =
      Value.IntV 99 :=
  ⟨rfl, rfl, rfl, rfl, rfl⟩

/-- C6 counterexample: a conjunct with two `'='` characters does not raise
the invalid-condition error — it parses fine, split at the first `'='`
(the remainder becoming a text literal). -/
theorem C6_counterexample :
    parseConditions "a=1=2".toList =
      Except.ok [("a".toList, Value.TextV "1=2".toList)] := rfl

/-! ### Join cardinality -/

theorem joinInner_no_conds (lname rname : Str) (lrow : Row) (rrows : List Row) :
    joinInner lname rname [] [] lrow rrows =
      Except.ok (rrows.map (mergeRows lname rname lrow)) := by
  induction rrows with
  | nil => rfl
  | cons r rest ih => simp [joinInner, checkConds, ih]

theorem joinOuter_no_conds (lname rname : Str) (rrows lrows : List Row) :
    joinOuter lname rname [] [] rrows lrows =
      Except.ok (lrows.flatMap fun lr => rrows.map (mergeRows lname rname lr)) := by
  induction lrows with
  | nil => rfl
  | cons l rest ih => simp [joinOuter, joinInner_no_conds, ih]

theorem length_bind_const {α β : Type} (l : List α) (f : α → List β) (m : Nat)
    (h : ∀ a, (f a).length = m) : (l.flatMap f).length = l.length * m := by
  induction l with
  | nil => simp
  | cons a rest ih => simp [List.flatMap_cons, h, ih, Nat.succ_mul, Nat.add_comm]

/-- C8: a `SELECT *` join with no join condition and no WHERE condition
returns exactly one merged row per (left row, right row) pair: n × m rows. -/
theorem C8_join_cardinality (lname rname : Str) (tL tR : Table) :
    ∃ js, joinSelectData lname rname tL tR [starStr] [] [] = Except.ok js ∧
      js.length = tL.rows.length * tR.rows.length := by
  refine ⟨tL.rows.flatMap fun lr => tR.rows.map (mergeRows lname rname lr), ?_, ?_⟩
  · simp [joinSelectData, find_rows, joinOuter_no_conds]
  · exact length_bind_const _ _ _ (fun a => by simp)

/-! ### Condition-clause parsing -/

theorem splitFirstEq_eq_none {p : Str} : splitFirstEq p = none ↔ '=' ∉ p := by
  induction p with
  | nil => simp [splitFirstEq]
  | cons c rest ih =>
    by_cases hc : c = '='
    · subst hc
      simp [splitFirstEq]
    · cases h : splitFirstEq rest with
      | none => simp [splitFirstEq, hc, h, ih.mp h, Ne.symm hc]
      | some kv =>
        simp only [splitFirstEq, hc]
        constructor
        · intro hh
          rw [h] at hh
          simp at hh
        · intro hh
          exfalso
          have : '=' ∉ rest := fun hm => hh (List.mem_cons_of_mem _ hm)
          rw [ih.mpr this] at h
          simp at h

theorem splitFirstEq_eq_some {p : Str} (h : '=' ∈ p) :
    splitFirstEq p =
      some (p.takeWhile (fun c => c != '='), (p.dropWhile (fun c => c != '=')).drop 1) := by
  induction p with
  | nil => simp at h
  | cons c rest ih =>
    by_cases hc : c = '='
    · subst hc
      simp [splitFirstEq, List.takeWhile, List.dropWhile]
    · have hm : '=' ∈ rest := by
        rcases List.mem_cons.mp h with h | h
        · exact absurd h.symm hc
        · exact h
      have hne : (c != '=') = true := by simp [hc]
      simp [splitFirstEq, hc, ih hm, List.takeWhile, List.dropWhile, hne]

/-- The expected entry of one conjunct under the amended reading: key is the
stripped text before the first `'='`, value the parsed text after it. -/
def condEntry (p : Str) : Str × Value :=
  (trimList (p.takeWhile (fun c => c != '=')),
    parseValue ((p.dropWhile (fun c => c != '=')).drop 1))

theorem parseCondParts_ok : ∀ (parts : List Str) (acc : Values),
    (∀ p ∈ parts, '=' ∈ p) →
    parseCondParts parts acc =
      Except.ok (parts.foldl (fun d p => dset (condEntry p).1 (condEntry p).2 d) acc) := by
  intro parts
  induction parts with
  | nil => intro acc _; rfl
  | cons p rest ih =>
    intro acc h
    have hp := h p (List.mem_cons_self _ _)
    simp only [parseCondParts, splitFirstEq_eq_some hp]
    rw [ih _ (fun q hq => h q (List.mem_cons_of_mem _ hq))]
    rfl

theorem parseCondParts_err : ∀ (parts : List Str) (acc : Values),
    (∃ p ∈ parts, '=' ∉ p) → ∃ e, parseCondParts parts acc = Except.error e := by
  intro parts
  induction parts with
  | nil => intro acc h; simp at h
  | cons p rest ih =>
    intro acc h
    by_cases hp : '=' ∈ p
    · rcases h with ⟨q, hq, hqe⟩
      rcases List.mem_cons.mp hq with rfl | hq'
      · exact absurd hp hqe
      · simp only [parseCondParts, splitFirstEq_eq_some hp]
        exact ih _ ⟨q, hq', hqe⟩
    · refine ⟨"Invalid condition: ".toList ++ p, ?_⟩
      simp [parseCondParts, splitFirstEq_eq_none.mpr hp]

/-- C6 (amended): a WHERE/JOIN-ON clause is split on the substring `AND`
into stripped conjuncts; a conjunct with no `'='` raises the
invalid-condition error, and otherwise each conjunct is split at its first
`'='` into a stripped key and a parsed value literal (conjuncts with more
than one `'='` are accepted). -/
theorem C6_condition_parsing (s : Str) :
    ((∀ p ∈ (splitAnd s).map trimList, '=' ∈ p) →
      parseConditions s =
        Except.ok (((splitAnd s).map trimList).foldl
          (fun d p => dset (condEntry p).1 (condEntry p).2 d) [])) ∧
    ((∃ p ∈ (splitAnd s).map trimList, '=' ∉ p) →
      ∃ e, parseConditions s = Except.error e) :=
  ⟨fun h => parseCondParts_ok _ _ h, fun h => parseCondParts_err _ _ h⟩

/-- Witness for C6 on `pk = 1 AND u = 2`. -/
theorem C6_condition_parsing_witness :
    parseConditions "pk = 1 AND u = 2".toList =
      Except.ok ((((splitAnd "pk = 1 AND u = 2".toList).map trimList)).foldl
        (fun d p => dset (condEntry p).1 (condEntry p).2 d) []) :=
  (C6_condition_parsing _).1 (by decide)

/-! ### Value-literal parsing -/

/-- C7: `_parse_value` on the stripped literal — `NULL` in any letter case
is the null value; a single-quoted literal is the enclosed text with each
`''` pair unescaped to one quote; otherwise a literal containing `'.'` is
parsed as floating point and a literal without one gets an integer parse,
with numeric failure falling back to the raw literal as text. -/
theorem C7_parse_value (s : Str) :
    (toUpperList (trimList s) = "NULL".toList → parseValue s = Value.NullV) ∧
    (toUpperList (trimList s) ≠ "NULL".toList → isQuoted (trimList s) = true →
      parseValue s = Value.TextV (unescapeQuotes (((trimList s).drop 1).dropLast))) ∧
    (toUpperList (trimList s) ≠ "NULL".toList → isQuoted (trimList s) = false →
      (trimList s).contains '.' = true → ∀ q, pyParseFloat (trimList s) = some q →
      parseValue s = Value.FloatV q) ∧
    (toUpperList (trimList s) ≠ "NULL".toList → isQuoted (trimList s) = false →
      (trimList s).contains '.' = true → pyParseFloat (trimList s) = none →
      parseValue s = Value.TextV (trimList s)) ∧
    (toUpperList (trimList s) ≠ "NULL".toList → isQuoted (trimList s) = false →
      (trimList s).contains '.' = false → ∀ n, pyParseInt (trimList s) = some n →
      parseValue s = Value.IntV n) ∧
    (toUpperList (trimList s) ≠ "NULL".toList → isQuoted (trimList s) = false →
      (trimList s).contains '.' = false → pyParseInt (trimList s) = none →
      parseValue s = Value.TextV (trimList s)) := by
  refine ⟨?_, ?_, ?_, ?_, ?_, ?_⟩
  · intro h
    simp [parseValue, h]
  · intro h1 h2
    have h1' : ¬ toUpperList (trimList s) = ['N', 'U', 'L', 'L'] := by simpa using h1
    simp [parseValue, h1', h2]
  · intro h1 h2 h3 q h4
    have h1' : ¬ toUpperList (trimList s) = ['N', 'U', 'L', 'L'] := by simpa using h1
    have h3' : '.' ∈ trimList s := by simpa using h3
    simp [parseValue, h1', h2, h3', h4]
  · intro h1 h2 h3 h4
    have h1' : ¬ toUpperList (trimList s) = ['N', 'U', 'L', 'L'] := by simpa using h1
    have h3' : '.' ∈ trimList s := by simpa using h3
    simp [parseValue, h1', h2, h3', h4]
  · intro h1 h2 h3 n h4
    have h1' : ¬ toUpperList (trimList s) = ['N', 'U', 'L', 'L'] := by simpa using h1
    have h3' : '.' ∉ trimList s := by simpa using h3
    simp [parseValue, h1', h2, h3', h4]
  · intro h1 h2 h3 h4
    have h1' : ¬ toUpperList (trimList s) = ['N', 'U', 'L', 'L'] := by simpa using h1
    have h3' : '.' ∉ trimList s := by simpa using h3
    simp [parseValue, h1', h2, h3', h4]

/-- Witness for C7 on the quoted literal `' \x27It\x27\x27s\x27 '`
(whitespace stripped, quotes removed, `''` unescaped). -/
theorem C7_parse_value_witness :
    parseValue " \x27It\x27\x27s\x27 ".toList = Value.TextV "It\x27s".toList :=
  (C7_parse_value _).2.1 (by decide) (by decide)

/-! ### Row-identifier stability of UPDATE -/

theorem getD_set_ne {α : Type} (l : List α) (p i : Nat) (x d : α) (h : p ≠ i) :
    (l.set p x).getD i d = l.getD i d := by
  simp [List.getD_eq_getElem?_getD, List.getElem?_set_ne h]

theorem getD_set_lt {α : Type} (l : List α) (p : Nat) (x d : α) (h : p < l.length) :
    (l.set p x).getD p d = x := by
  simp [List.getD_eq_getElem?_getD, List.getElem?_set_eq_of_lt x h]

/-- The three possible outcomes of one update step, stated structurally:
skip, raise-after-removal, or full write. -/
theorem updStep_cases (t : Table) (p : Nat) (rid : Value) (c : Str) (nv : Value)
    (col : Column) :
    (pyEq (rowVal (t.rows.getD p []) c) nv = true ∧ updStep t p rid c nv col = (t, none)) ∨
    (pyEq (rowVal (t.rows.getD p []) c) nv = false ∧
      ∃ t1, t1 = (if dhas c t.indexes then
          setIdx t c (idxRemove (getIdx t c) (rowVal (t.rows.getD p []) c) rid) else t) ∧
        ((∃ e, constraintCheck col c nv (getIdx t1 c) = some e ∧
            updStep t p rid c nv col = (t1, some e)) ∨
         (constraintCheck col c nv (getIdx t1 c) = none ∧
            updStep t p rid c nv col =
              (let t2 : Table := { t1 with
                  rows := t1.rows.set p (dset c nv (t.rows.getD p [])) };
                if dhas c t2.indexes then
                  setIdx t2 c (idxAdd (getIdx t2 c) nv rid) else t2, none)))) := by
  by_cases hold : pyEq (rowVal (t.rows.getD p []) c) nv = true
  · exact Or.inl ⟨hold, by rw [updStep, if_pos hold]⟩
  · refine Or.inr ⟨by simpa using hold, _, rfl, ?_⟩
    cases hck : constraintCheck col c nv
        (getIdx (if dhas c t.indexes then
          setIdx t c (idxRemove (getIdx t c) (rowVal (t.rows.getD p []) c) rid) else t) c) with
    | some e =>
      refine Or.inl ⟨e, rfl, ?_⟩
      rw [updStep, if_neg hold]
      simp only [hck]
    | none =>
      refine Or.inr ⟨rfl, ?_⟩
      rw [updStep, if_neg hold]
      simp only [hck]

theorem updStep_shape (t : Table) (p : Nat) (rid : Value) (c : Str) (nv : Value)
    (col : Column) :
    (updStep t p rid c nv col).1.columns = t.columns ∧
    (updStep t p rid c nv col).1.next_row_id = t.next_row_id ∧
    (updStep t p rid c nv col).1.rows.length = t.rows.length := by
  rcases updStep_cases t p rid c nv col with ⟨_, heq⟩ | ⟨_, t1, ht1, hrest⟩
  · rw [heq]
    exact ⟨rfl, rfl, rfl⟩
  · have h1 : t1.columns = t.columns ∧ t1.next_row_id = t.next_row_id ∧ t1.rows = t.rows := by
      rw [ht1]
      by_cases hha : dhas c t.indexes = true <;> simp [hha, setIdx]
    rcases hrest with ⟨e, _, heq⟩ | ⟨_, heq⟩
    · rw [heq]
      exact ⟨h1.1, h1.2.1, by rw [h1.2.2]⟩
    · rw [heq]
      by_cases hha2 : dhas c ({ t1 with rows := t1.rows.set p (dset c nv (t.rows.getD p [])) } : Table).indexes = true <;>
        simp [hha2, setIdx, h1.1, h1.2.1, h1.2.2]

theorem updStep_rowid (t : Table) (p : Nat) (rid : Value) (c : Str) (nv : Value)
    (col : Column) (hc : c ≠ rowIdKey) :
    ∀ i, dget rowIdKey ((updStep t p rid c nv col).1.rows.getD i []) =
      dget rowIdKey (t.rows.getD i []) := by
  intro i
  rcases updStep_cases t p rid c nv col with ⟨_, heq⟩ | ⟨_, t1, ht1, hrest⟩
  · rw [heq]
  · have h1 : t1.rows = t.rows := by
      rw [ht1]
      by_cases hha : dhas c t.indexes = true <;> simp [hha, setIdx]
    rcases hrest with ⟨e, _, heq⟩ | ⟨_, heq⟩
    · rw [heq, h1]
    · rw [heq]
      have hrows : ((let t2 : Table := { t1 with
          rows := t1.rows.set p (dset c nv (t.rows.getD p [])) };
          if dhas c t2.indexes then
            setIdx t2 c (idxAdd (getIdx t2 c) nv rid) else t2) : Table).rows =
          t.rows.set p (dset c nv (t.rows.getD p [])) := by
        by_cases hha2 : dhas c ({ t1 with rows := t1.rows.set p (dset c nv (t.rows.getD p [])) } : Table).indexes = true <;>
          simp [hha2, setIdx, h1]
      rw [hrows]
      by_cases hpi : p = i
      · subst hpi
        by_cases hlt : p < t.rows.length
        · rw [getD_set_lt _ _ _ _ hlt]
          exact dget_dset_ne nv _ (Ne.symm hc)
        · rw [List.set_eq_of_length_le (Nat.le_of_not_lt hlt)]
      · rw [getD_set_ne _ _ _ _ _ hpi]

theorem updateCols_cons_none {t : Table} {p : Nat} {rid : Value} {c : Str}
    {nv : Value} {rest : Values} (h : dget c t.columns = none) :
    updateCols t p rid ((c, nv) :: rest) = updateCols t p rid rest := by
  rw [updateCols, h]

theorem updateCols_cons_err {t t' : Table} {p : Nat} {rid : Value} {c : Str}
    {nv : Value} {rest : Values} {col : Column} {e : Str}
    (h : dget c t.columns = some col) (hs : updStep t p rid c nv col = (t', some e)) :
    updateCols t p rid ((c, nv) :: rest) = (t', Except.error e) := by
  rw [updateCols, h]
  show (match updStep t p rid c nv col with
    | (t2, some e2) => (t2, Except.error e2)
    | (t2, none) => updateCols t2 p rid rest) = (t', Except.error e)
  rw [hs]

theorem updateCols_cons_ok {t t' : Table} {p : Nat} {rid : Value} {c : Str}
    {nv : Value} {rest : Values} {col : Column}
    (h : dget c t.columns = some col) (hs : updStep t p rid c nv col = (t', none)) :
    updateCols t p rid ((c, nv) :: rest) = updateCols t' p rid rest := by
  rw [updateCols, h]
  show (match updStep t p rid c nv col with
    | (t2, some e2) => (t2, Except.error e2)
    | (t2, none) => updateCols t2 p rid rest) = updateCols t' p rid rest
  rw [hs]

theorem updateCols_shape (us : Values) : ∀ (t : Table) (p : Nat) (rid : Value),
    (updateCols t p rid us).1.columns = t.columns ∧
    (updateCols t p rid us).1.next_row_id = t.next_row_id ∧
    (updateCols t p rid us).1.rows.length = t.rows.length := by
  induction us with
  | nil => intro t p rid; exact ⟨rfl, rfl, rfl⟩
  | cons u rest ih =>
    intro t p rid
    rcases u with ⟨c, nv⟩
    cases hcol : dget c t.columns with
    | none => rw [updateCols_cons_none hcol]; exact ih t p rid
    | some col =>
      rcases hstep : updStep t p rid c nv col with ⟨t', res⟩
      have hsh := updStep_shape t p rid c nv col
      rw [hstep] at hsh
      cases res with
      | some e => rw [updateCols_cons_err hcol hstep]; exact hsh
      | none =>
        rw [updateCols_cons_ok hcol hstep]
        have := ih t' p rid
        exact ⟨this.1.trans hsh.1, this.2.1.trans hsh.2.1, this.2.2.trans hsh.2.2⟩

theorem updateCols_rowid (us : Values) : ∀ (t : Table) (p : Nat) (rid : Value),
    rowIdKey ∉ dkeys t.columns →
    ∀ i, dget rowIdKey ((updateCols t p rid us).1.rows.getD i []) =
      dget rowIdKey (t.rows.getD i []) := by
  induction us with
  | nil => intro t p rid _ i; rfl
  | cons u rest ih =>
    intro t p rid hrk i
    rcases u with ⟨c, nv⟩
    cases hcol : dget c t.columns with
    | none => rw [updateCols_cons_none hcol]; exact ih t p rid hrk i
    | some col =>
      have hcne : c ≠ rowIdKey := fun h => hrk (h ▸ mem_dkeys_of_dget hcol)
      rcases hstep : updStep t p rid c nv col with ⟨t', res⟩
      have hsh := updStep_shape t p rid c nv col
      have hid := updStep_rowid t p rid c nv col hcne
      rw [hstep] at hsh hid
      cases res with
      | some e => rw [updateCols_cons_err hcol hstep]; exact hid i
      | none =>
        rw [updateCols_cons_ok hcol hstep]
        have hrk' : rowIdKey ∉ dkeys t'.columns := by rw [hsh.1]; exact hrk
        exact (ih t' p rid hrk' i).trans (hid i)

theorem updateRowsAux_cons_tyerr {t : Table} {p : Nat} {ps : List Nat}
    {upds : Values} {count : Int} {e : Str} (h : checkTypes t upds = Except.error e) :
    updateRowsAux t (p :: ps) upds count = (t, Except.error e) := by
  rw [updateRowsAux, h]

theorem updateRowsAux_cons_err {t t' : Table} {p : Nat} {ps : List Nat}
    {upds : Values} {count : Int} {u : Unit} {e : Str}
    (hty : checkTypes t upds = Except.ok u)
    (hc : updateCols t p (rowId (t.rows.getD p [])) upds = (t', Except.error e)) :
    updateRowsAux t (p :: ps) upds count = (t', Except.error e) := by
  rw [updateRowsAux, hty]
  show (match updateCols t p (rowId (t.rows.getD p [])) upds with
    | (t2, Except.error e2) => (t2, Except.error e2)
    | (t2, Except.ok u2) => updateRowsAux t2 ps upds (count + 1)) = (t', Except.error e)
  rw [hc]

theorem updateRowsAux_cons_ok {t t' : Table} {p : Nat} {ps : List Nat}
    {upds : Values} {count : Int} {u u2 : Unit}
    (hty : checkTypes t upds = Except.ok u)
    (hc : updateCols t p (rowId (t.rows.getD p [])) upds = (t', Except.ok u2)) :
    updateRowsAux t (p :: ps) upds count = updateRowsAux t' ps upds (count + 1) := by
  rw [updateRowsAux, hty]
  show (match updateCols t p (rowId (t.rows.getD p [])) upds with
    | (t2, Except.error e2) => (t2, Except.error e2)
    | (t2, Except.ok u3) => updateRowsAux t2 ps upds (count + 1)) =
    updateRowsAux t' ps upds (count + 1)
  rw [hc]

theorem updateRowsAux_shape (ps : List Nat) : ∀ (t : Table) (upds : Values) (count : Int),
    (updateRowsAux t ps upds count).1.columns = t.columns ∧
    (updateRowsAux t ps upds count).1.next_row_id = t.next_row_id ∧
    (updateRowsAux t ps upds count).1.rows.length = t.rows.length := by
  induction ps with
  | nil => intro t upds count; exact ⟨rfl, rfl, rfl⟩
  | cons p ps ih =>
    intro t upds count
    cases hty : checkTypes t upds with
    | error e => rw [updateRowsAux_cons_tyerr hty]; exact ⟨rfl, rfl, rfl⟩
    | ok u =>
      rcases hcols : updateCols t p (rowId (t.rows.getD p [])) upds with ⟨t', res⟩
      have hsh := updateCols_shape upds t p (rowId (t.rows.getD p []))
      rw [hcols] at hsh
      cases res with
      | error e => rw [updateRowsAux_cons_err hty hcols]; exact hsh
      | ok u2 =>
        rw [updateRowsAux_cons_ok hty hcols]
        have := ih t' upds (count + 1)
        exact ⟨this.1.trans hsh.1, this.2.1.trans hsh.2.1, this.2.2.trans hsh.2.2⟩

theorem updateRowsAux_rowid (ps : List Nat) : ∀ (t : Table) (upds : Values) (count : Int),
    rowIdKey ∉ dkeys t.columns →
    ∀ i, dget rowIdKey ((updateRowsAux t ps upds count).1.rows.getD i []) =
      dget rowIdKey (t.rows.getD i []) := by
  induction ps with
  | nil => intro t upds count _ i; rfl
  | cons p ps ih =>
    intro t upds count hrk i
    cases hty : checkTypes t upds with
    | error e => rw [updateRowsAux_cons_tyerr hty]
    | ok u =>
      rcases hcols : updateCols t p (rowId (t.rows.getD p [])) upds with ⟨t', res⟩
      have hsh := updateCols_shape upds t p (rowId (t.rows.getD p []))
      have hid := updateCols_rowid upds t p (rowId (t.rows.getD p [])) hrk
      rw [hcols] at hsh hid
      cases res with
      | error e => rw [updateRowsAux_cons_err hty hcols]; exact hid i
      | ok u2 =>
        rw [updateRowsAux_cons_ok hty hcols]
        have hrk' : rowIdKey ∉ dkeys t'.columns := by rw [hsh.1]; exact hrk
        exact (ih t' upds (count + 1) hrk' i).trans (hid i)

/-- C9 (amended): provided no schema column is literally named `_row_id`,
an `update_rows` call — whether it returns a count or raises — keeps the
row count and every row's internal identifier unchanged (every row is live
before and after, at the same position, with the same identifier). -/
theorem C9_update_rowid_stable (t : Table) (conds upds : Values)
    (h : rowIdKey ∉ dkeys t.columns) :
    (update_rows t conds upds).1.rows.length = t.rows.length ∧
    ∀ i, dget rowIdKey ((update_rows t conds upds).1.rows.getD i []) =
      dget rowIdKey (t.rows.getD i []) :=
  ⟨(updateRowsAux_shape _ t upds 0).2.2,
    fun i => updateRowsAux_rowid _ t upds 0 h i⟩

/-! ### SELECT * round trip -/

theorem dset_append_of_not_mem {α : Type} {k : Str} (v : α) {d : List (Str × α)}
    (h : k ∉ dkeys d) : dset k v d = d ++ [(k, v)] := by
  induction d with
  | nil => rfl
  | cons e rest ih =>
    rcases e with ⟨ek, ev⟩
    simp at h
    push_neg at h
    simp [dset, Ne.symm h.1, ih h.2]

theorem foldl_dset_fresh {α ι : Type} (key : ι → Str) (g : ι → α) :
    ∀ (l : List ι) (acc : List (Str × α)),
    (l.map key).Nodup → (∀ k ∈ l.map key, k ∉ dkeys acc) →
    l.foldl (fun d e => dset (key e) (g e) d) acc = acc ++ l.map (fun e => (key e, g e)) := by
  intro l
  induction l with
  | nil => intro acc _ _; simp
  | cons e rest ih =>
    intro acc hnd hfresh
    rw [List.map_cons] at hnd
    obtain ⟨hne, hnd'⟩ := List.nodup_cons.mp hnd
    simp only [List.foldl_cons]
    have hk : key e ∉ dkeys acc :=
      hfresh (key e) (by rw [List.map_cons]; exact List.mem_cons_self _ _)
    rw [dset_append_of_not_mem (g e) hk]
    have hfresh' : ∀ k ∈ rest.map key, k ∉ dkeys (acc ++ [(key e, g e)]) := by
      intro k hkm
      have h1 : k ∉ dkeys acc :=
        hfresh k (by rw [List.map_cons]; exact List.mem_cons_of_mem _ hkm)
      have h2 : k ≠ key e := fun hkk => hne (hkk ▸ hkm)
      have hdk : dkeys (acc ++ [(key e, g e)]) = dkeys acc ++ [key e] := by
        simp [dkeys]
      rw [hdk]
      simp [h1, h2]
    rw [ih _ hnd' hfresh']
    simp

theorem mkTable_columns (nm : Str) (cols : List Column)
    (h : (cols.map Column.name).Nodup) :
    (mkTable nm cols).columns = cols.map (fun c => (c.name, c)) := by
  have := foldl_dset_fresh Column.name (fun c => c) cols [] h (by simp)
  simpa [mkTable] using this

theorem buildRow_eq (t : Table) (vs : Values) (cols : List Column)
    (hc : t.columns = cols.map (fun c => (c.name, c)))
    (hnd : (cols.map Column.name).Nodup) (hrk : rowIdKey ∉ cols.map Column.name) :
    buildRow t vs = mkFullRow cols t.next_row_id vs := by
  unfold buildRow mkFullRow
  rw [hc]
  have hkeys : ((cols.map (fun c => (c.name, c))).map Prod.fst) = cols.map Column.name := by
    simp [List.map_map]
  have := foldl_dset_fresh Prod.fst (fun e => (dget e.1 vs).getD Value.NullV)
    (cols.map (fun c => (c.name, c))) [(rowIdKey, Value.IntV t.next_row_id)]
    (by rw [hkeys]; exact hnd)
    (by rw [hkeys]; intro k hk; simp [dkeys]; intro hkr; exact hrk (hkr ▸ hk))
  rw [this]
  simp [List.map_map]

theorem insert_row_ok (t t' : Table) (vs : Values) (rid : Int)
    (h : insert_row t vs = (t', Except.ok rid)) :
    rid = t.next_row_id ∧ t'.columns = t.columns ∧ t'.name = t.name ∧
    t'.rows = t.rows ++ [buildRow t vs] ∧
    t'.next_row_id = t.next_row_id + 1 ∧
    t'.indexes = insertIndexes vs t.next_row_id t.indexes := by
  unfold insert_row at h
  cases h1 : checkTypes t vs with
  | error e1 => rw [h1] at h; simp at h
  | ok u1 =>
    rw [h1] at h
    cases h2 : insertCheckConstraints t vs with
    | error e2 => rw [h2] at h; simp at h
    | ok u2 =>
      rw [h2] at h
      simp only [Prod.mk.injEq, Except.ok.injEq] at h
      rcases h with ⟨ht, hrid⟩
      subst ht
      exact ⟨hrid.symm, rfl, rfl, rfl, rfl, rfl⟩

theorem insertAll_rows (cols : List Column) (hwf : WFcols cols) :
    ∀ (vss : List Values) (t t' : Table),
    t.columns = cols.map (fun c => (c.name, c)) →
    insertAll t vss = some t' →
    t'.rows = t.rows ++ (List.range vss.length).map
      (fun (i : Nat) => mkFullRow cols (t.next_row_id + (i : Int)) (vss.getD i [])) ∧
    t'.columns = t.columns := by
  intro vss
  induction vss with
  | nil =>
    intro t t' hc h
    simp only [insertAll, Option.some.injEq] at h
    subst h
    simp
  | cons vs rest ih =>
    intro t t' hc h
    simp only [insertAll] at h
    rcases hins : insert_row t vs with ⟨t1, res⟩
    rw [hins] at h
    cases res with
    | error e => simp at h
    | ok rid =>
      rcases insert_row_ok t t1 vs rid hins with ⟨_, hcols1, _, hrows1, hnext1, _⟩
      have hc1 : t1.columns = cols.map (fun c => (c.name, c)) := hcols1.trans hc
      rcases ih t1 t' hc1 h with ⟨hrows, hcols⟩
      constructor
      · rw [hrows, hrows1, hnext1]
        rw [buildRow_eq t vs cols hc hwf.1 hwf.2]
        simp only [List.length_cons, List.range_succ_eq_map, List.map_cons, List.map_map]
        rw [List.append_assoc]
        congr 1
        simp only [List.singleton_append, List.cons.injEq]
        constructor
        · congr 1
          omega
        · apply List.map_congr_left
          intro i hi
          simp only [Function.comp_apply, List.getD_cons_succ]
          congr 1
          omega
      · exact hcols.trans hcols1

/-- C1 (amended): after any sequence of successful inserts into a fresh
table (schema without duplicate names and without a column named
`_row_id`), `SELECT *` with no WHERE and no JOIN returns, in insertion
order, one mapping per live row holding exactly the inserted values plus
null for every omitted schema column — and additionally the internal
`'_row_id'` key, which this code path does not strip. -/
theorem C1_select_star_roundtrip (nm : Str) (cols : List Column)
    (vss : List Values) (t : Table)
    (hwf : WFcols cols) (hins : insertAll (mkTable nm cols) vss = some t) :
    selectData t [starStr] [] = (List.range vss.length).map
      (fun (i : Nat) => mkFullRow cols (1 + (i : Int)) (vss.getD i [])) ∧
    ∀ r ∈ selectData t [starStr] [], dget rowIdKey r ≠ none := by
  have hbase := insertAll_rows cols hwf vss (mkTable nm cols) t
    (mkTable_columns nm cols hwf.1) hins
  have hsel : selectData t [starStr] [] = t.rows := by
    simp [selectData, find_rows]
  constructor
  · rw [hsel, hbase.1]
    simp [mkTable]
  · intro r hr
    rw [hsel, hbase.1] at hr
    simp only [mkTable, List.nil_append] at hr
    rcases List.mem_map.mp hr with ⟨i, _, hrow⟩
    rw [← hrow]
    simp [mkFullRow, dget]

/-- Witness table for C1: two inserts, the second supplying nothing. -/
def c1wT : Table :=
  (insert_row (insert_row (mkTable "t".toList [colIntN "a".toList])
    [("a".toList, Value.IntV 1)]).1 []).1

/-- Witness for C1 (amended) on a concrete two-insert history. -/
theorem C1_select_star_roundtrip_witness :
    selectData c1wT [starStr] [] = (List.range 2).map
      (fun (i : Nat) => mkFullRow [colIntN "a".toList] (1 + (i : Int))
        (([[("a".toList, Value.IntV 1)], []] : List Values).getD i [])) ∧
    ∀ r ∈ selectData c1wT [starStr] [], dget rowIdKey r ≠ none :=
  C1_select_star_roundtrip "t".toList [colIntN "a".toList]
    [[("a".toList, Value.IntV 1)], []] c1wT ⟨by decide, by decide⟩ rfl

/-- Witness for C9 on a concrete two-column update. -/
theorem C9_update_rowid_stable_witness :
    (update_rows exTwoRows [("pk".toList, Value.IntV 1)]
      [("u".toList, Value.IntV 30)]).1.rows.length = exTwoRows.rows.length ∧
    ∀ i, dget rowIdKey (((update_rows exTwoRows [("pk".toList, Value.IntV 1)]
        [("u".toList, Value.IntV 30)]).1.rows.getD i [])) =
      dget rowIdKey (exTwoRows.rows.getD i []) :=
  C9_update_rowid_stable exTwoRows _ _ (by decide)

/-! ### Partial mutation of a failing multi-column UPDATE -/

theorem matchedPositions_mem_lt {t : Table} {conds : Values} {p : Nat}
    (h : p ∈ matchedPositions t conds) : p < t.rows.length := by
  unfold matchedPositions at h
  by_cases hc : conds = []
  · simp [hc] at h
    exact h
  · simp [hc] at h
    exact h.1

theorem dhas_setIdx_same (t : Table) (c : Str) (idx : Index) :
    dhas c (setIdx t c idx).indexes = true := by
  simp [setIdx, dhas, dget_dset_same]

/-- A successful, value-changing update step: the row is rewritten in place
and (if the column is indexed) the row id is now indexed under the new
value; other columns' indexes are untouched. -/
theorem updStep_write (t : Table) (p : Nat) (rid : Value) (c : Str) (nv : Value)
    (col : Column) {t' : Table}
    (hchg : pyEq (rowVal (t.rows.getD p []) c) nv = false)
    (h : updStep t p rid c nv col = (t', none)) :
    t'.rows = t.rows.set p (dset c nv (t.rows.getD p [])) ∧
    t'.columns = t.columns ∧
    (dhas c t.indexes = true → rid ∈ idxFind (getIdx t' c) nv) ∧
    (∀ c', c' ≠ c → dget c' t'.indexes = dget c' t.indexes) := by
  rcases updStep_cases t p rid c nv col with ⟨hsk, _⟩ | ⟨_, t1, ht1, hrest⟩
  · rw [hsk] at hchg
    simp at hchg
  · rcases hrest with ⟨e, _, heq⟩ | ⟨_, heq⟩
    · rw [heq] at h
      simp at h
    · rw [heq] at h
      have ht' : t' = (let t2 : Table := { t1 with
          rows := t1.rows.set p (dset c nv (t.rows.getD p [])) };
          if dhas c t2.indexes then setIdx t2 c (idxAdd (getIdx t2 c) nv rid) else t2) := by
        exact (congrArg Prod.fst h).symm
      have h1rows : t1.rows = t.rows ∧ t1.columns = t.columns := by
        rw [ht1]
        by_cases hha : dhas c t.indexes = true <;> simp [hha, setIdx]
      by_cases hha : dhas c t.indexes = true
      · have ht1' : t1 = setIdx t c (idxRemove (getIdx t c) (rowVal (t.rows.getD p []) c) rid) := by
          rw [ht1, if_pos hha]
        have hd2 : dhas c ({ t1 with rows := t1.rows.set p (dset c nv (t.rows.getD p [])) } : Table).indexes = true := by
          show dhas c t1.indexes = true
          rw [ht1']
          exact dhas_setIdx_same t c _
        rw [if_pos hd2] at ht'
        refine ⟨?_, ?_, ?_, ?_⟩
        · rw [ht', setIdx]
          simp [h1rows.1]
        · rw [ht', setIdx]
          simp [h1rows.2]
        · intro _
          rw [ht']
          show rid ∈ idxFind (getIdx (setIdx _ c _) c) nv
          have : getIdx (setIdx ({ t1 with rows := t1.rows.set p (dset c nv (t.rows.getD p [])) } : Table) c (idxAdd (getIdx ({ t1 with rows := t1.rows.set p (dset c nv (t.rows.getD p [])) } : Table) c) nv rid)) c = idxAdd (getIdx ({ t1 with rows := t1.rows.set p (dset c nv (t.rows.getD p [])) } : Table) c) nv rid := by
            simp [setIdx, getIdx, dget_dset_same]
          rw [this, idxFind_add_self _ rid (pyEq_refl nv)]
          simp
        · intro c' hc'
          rw [ht']
          show dget c' (dset c _ ({ t1 with rows := t1.rows.set p (dset c nv (t.rows.getD p [])) } : Table).indexes) = dget c' t.indexes
          rw [dget_dset_ne _ _ hc']
          show dget c' t1.indexes = dget c' t.indexes
          rw [ht1', setIdx]
          exact dget_dset_ne _ _ hc'
      · have ht1' : t1 = t := by rw [ht1, if_neg hha]
        subst ht1'
        have hd2 : dhas c ({ t1 with rows := t1.rows.set p (dset c nv (t1.rows.getD p [])) } : Table).indexes = false := by
          show dhas c t1.indexes = false
          simpa using hha
        rw [if_neg (by simp [hd2])] at ht'
        refine ⟨?_, ?_, ?_, ?_⟩
        · rw [ht']
        · rw [ht']
        · intro hcon
          exact absurd hcon hha
        · intro c' _
          rw [ht']

/-- A raising update step: the row values are untouched (only the raising
column's own index may have lost the old entry). -/
theorem updStep_err (t : Table) (p : Nat) (rid : Value) (c : Str) (nv : Value)
    (col : Column) {t' : Table} {e : Str}
    (h : updStep t p rid c nv col = (t', some e)) :
    t'.rows = t.rows ∧ t'.columns = t.columns ∧
    (∀ c', c' ≠ c → dget c' t'.indexes = dget c' t.indexes) := by
  rcases updStep_cases t p rid c nv col with ⟨_, heq⟩ | ⟨_, t1, ht1, hrest⟩
  · rw [heq] at h
    simp at h
  · rcases hrest with ⟨e2, _, heq⟩ | ⟨_, heq⟩
    · rw [heq] at h
      have ht' : t' = t1 := (congrArg Prod.fst h).symm
      subst ht'
      rw [ht1]
      by_cases hha : dhas c t.indexes = true
      · refine ⟨by simp [hha, setIdx], by simp [hha, setIdx], ?_⟩
        intro c' hc'
        simp only [hha, if_true, setIdx]
        exact dget_dset_ne _ _ hc'
      · simp [hha]
    · rw [heq] at h
      simp at h

/-- C5: during an UPDATE matching a single row with two SET columns, when
the first column's step succeeds (changing the value) and the second
column's step raises, the call returns the error with the first column
already rewritten to its new value (and, if indexed, the row id already
indexed under the new value), while the second column's value is untouched
— no rollback happens. -/
theorem C5_partial_update (t : Table) (conds : Values) (c1 c2 : Str)
    (v1 v2 : Value) (col1 col2 : Column) (p : Nat) (rid : Value) (e : Str)
    {t1 tf : Table}
    (hm : matchedPositions t conds = [p])
    (hne : c1 ≠ c2)
    (hcol1 : dget c1 t.columns = some col1)
    (hcol2 : dget c2 t.columns = some col2)
    (hty : checkTypes t [(c1, v1), (c2, v2)] = Except.ok ())
    (hrid : rid = rowId (t.rows.getD p []))
    (hchg : pyEq (rowVal (t.rows.getD p []) c1) v1 = false)
    (h1 : updStep t p rid c1 v1 col1 = (t1, none))
    (h2 : updStep t1 p rid c2 v2 col2 = (tf, some e)) :
    update_rows t conds [(c1, v1), (c2, v2)] = (tf, Except.error e) ∧
    rowVal (tf.rows.getD p []) c1 = v1 ∧
    rowVal (tf.rows.getD p []) c2 = rowVal (t.rows.getD p []) c2 ∧
    (dhas c1 t.indexes = true → rid ∈ idxFind (getIdx tf c1) v1) := by
  have hplt : p < t.rows.length :=
    matchedPositions_mem_lt (p := p) (by rw [hm]; exact List.mem_cons_self _ _)
  have hw := updStep_write t p rid c1 v1 col1 hchg h1
  have herr := updStep_err t1 p rid c2 v2 col2 h2
  have hcol2' : dget c2 t1.columns = some col2 := by rw [hw.2.1]; exact hcol2
  have hcomp : updateCols t p rid [(c1, v1), (c2, v2)] = (tf, Except.error e) := by
    rw [updateCols_cons_ok hcol1 h1, updateCols_cons_err hcol2' h2]
  have hmain : update_rows t conds [(c1, v1), (c2, v2)] = (tf, Except.error e) := by
    unfold update_rows
    rw [hm]
    rw [updateRowsAux_cons_err hty (by rw [← hrid]; exact hcomp)]
  have hrowf : tf.rows.getD p [] = dset c1 v1 (t.rows.getD p []) := by
    rw [herr.1, hw.1]
    exact getD_set_lt _ _ _ _ hplt
  refine ⟨hmain, ?_, ?_, ?_⟩
  · rw [hrowf]
    simp [rowVal, dget_dset_same]
  · rw [hrowf]
    simp [rowVal, dget_dset_ne _ _ (Ne.symm hne)]
  · intro hha
    have := hw.2.2.1 hha
    have hidx : dget c1 tf.indexes = dget c1 t1.indexes := herr.2.2 c1 hne
    show rid ∈ idxFind ((dget c1 tf.indexes).getD []) v1
    rw [hidx]
    exact this

/-- Witness states for C5: update `u` (succeeds, 10 → 30) then `pk` (raises
a primary-key violation against the other row) on the first row of
`exTwoRows`. -/
def c5t1 : Table :=
  (updStep exTwoRows 0 (Value.IntV 1) "u".toList (Value.IntV 30)
    (colIntU "u".toList)).1

def c5tf : Table :=
  (updStep c5t1 0 (Value.IntV 1) "pk".toList (Value.IntV 2)
    (colIntPK "pk".toList)).1

/-! ### Small facts used by the invariant induction -/

theorem dget_mem {α : Type} {k : Str} {d : List (Str × α)} {v : α}
    (h : dget k d = some v) : (k, v) ∈ d := by
  induction d with
  | nil => simp [dget] at h
  | cons e rest ih =>
    rcases e with ⟨ek, ev⟩
    by_cases he : ek = k
    · subst he
      simp [dget] at h
      simp [h]
    · simp [dget, he] at h
      exact List.mem_cons_of_mem _ (ih h)

theorem pyEq_null_right {x : Value} (h : pyEq x Value.NullV = true) : x = Value.NullV := by
  cases x <;> simp [pyEq] at h ⊢

theorem pyEq_null_left {x : Value} (h : pyEq Value.NullV x = true) : x = Value.NullV := by
  cases x <;> simp [pyEq] at h ⊢

theorem pyEq_intV {n m : Int} : pyEq (Value.IntV n) (Value.IntV m) = true ↔ n = m := by
  simp [pyEq]

/-- Looking up in an association list whose values are a function of the key
alone. -/
theorem dget_map_keyfun {ι α : Type} (key : ι → Str) (f : Str → α) (l : List ι) (c : Str) :
    dget c (l.map fun e => (key e, f (key e))) =
      if c ∈ l.map key then some (f c) else none := by
  induction l with
  | nil => simp [dget]
  | cons e rest ih =>
    by_cases he : key e = c
    · simp [dget, he]
    · simp only [List.map_cons, dget, he, if_false, ih, List.mem_cons]
      by_cases hc : c ∈ rest.map key
      · simp [hc]
      · simp [hc, Ne.symm he]

/-- Mapping a key-preserving value transform commutes with lookup. -/
theorem dget_map_entry {α β : Type} (h : Str → α → β) (d : List (Str × α)) (k : Str) :
    dget k (d.map fun e => (e.1, h e.1 e.2)) = (dget k d).map (h k) := by
  induction d with
  | nil => simp [dget]
  | cons e rest ih =>
    rcases e with ⟨ek, ev⟩
    by_cases he : ek = k
    · subst he
      simp [dget]
    · simp [dget, he, ih]

theorem foldl_dset_if_fresh {α ι : Type} (key : ι → Str) (g : ι → α)
    (P : ι → Prop) [DecidablePred P] :
    ∀ (l : List ι) (acc : List (Str × α)),
    (l.map key).Nodup → (∀ k ∈ l.map key, k ∉ dkeys acc) →
    l.foldl (fun d e => if P e then dset (key e) (g e) d else d) acc =
      acc ++ (l.filter (fun e => decide (P e))).map (fun e => (key e, g e)) := by
  intro l
  induction l with
  | nil => intro acc _ _; simp
  | cons e rest ih =>
    intro acc hnd hfresh
    rw [List.map_cons] at hnd
    obtain ⟨hne, hnd'⟩ := List.nodup_cons.mp hnd
    simp only [List.foldl_cons]
    by_cases hP : P e
    · have hk : key e ∉ dkeys acc :=
        hfresh (key e) (by rw [List.map_cons]; exact List.mem_cons_self _ _)
      rw [if_pos hP, dset_append_of_not_mem (g e) hk]
      have hfresh' : ∀ k ∈ rest.map key, k ∉ dkeys (acc ++ [(key e, g e)]) := by
        intro k hkm
        have h1 : k ∉ dkeys acc :=
          hfresh k (by rw [List.map_cons]; exact List.mem_cons_of_mem _ hkm)
        have h2 : k ≠ key e := fun hkk => hne (hkk ▸ hkm)
        have hdk : dkeys (acc ++ [(key e, g e)]) = dkeys acc ++ [key e] := by
          simp [dkeys]
        rw [hdk]
        simp [h1, h2]
      rw [ih _ hnd' hfresh']
      simp [hP]
    · rw [if_neg hP]
      rw [ih _ hnd' (fun k hkm => hfresh k (by rw [List.map_cons]; exact List.mem_cons_of_mem _ hkm))]
      simp [hP]

theorem mkTable_indexes (nm : Str) (cols : List Column)
    (h : (cols.map Column.name).Nodup) :
    (mkTable nm cols).indexes =
      (cols.filter (fun c => decide (c.constraint = Constraint.PRIMARY_KEY ∨
        c.constraint = Constraint.UNIQUE))).map (fun c => (c.name, ([] : Index))) := by
  have := foldl_dset_if_fresh Column.name (fun _ => ([] : Index))
    (fun c => c.constraint = Constraint.PRIMARY_KEY ∨ c.constraint = Constraint.UNIQUE)
    cols [] h (by simp)
  simpa [mkTable] using this

/-- An element of a list stays in the list after `set` at a position holding
a different element. -/
theorem mem_set_of_mem_ne {α : Type} [Inhabited α] {l : List α} {a x : α} {p : Nat}
    (ha : a ∈ l) (hp : p < l.length) (hne : a ≠ l.getD p default) : a ∈ l.set p x := by
  rcases List.mem_iff_getElem.mp ha with ⟨q, hq, heq⟩
  have hqp : q ≠ p := by
    intro h
    subst h
    apply hne
    rw [List.getD_eq_getElem?_getD, List.getElem?_eq_getElem hq]
    simpa using heq.symm
  apply List.mem_iff_getElem.mpr
  refine ⟨q, by simpa using hq, ?_⟩
  rw [List.getElem_set_ne (by omega)]
  exact heq

theorem mem_set_self {α : Type} {l : List α} {x : α} {p : Nat} (hp : p < l.length) :
    x ∈ l.set p x := by
  apply List.mem_iff_getElem.mpr
  refine ⟨p, by simpa using hp, ?_⟩
  exact List.getElem_set_self _

/-- Witness for C5 on the concrete two-column failing update. -/
theorem C5_partial_update_witness :
    update_rows exTwoRows [("pk".toList, Value.IntV 1)]
      [("u".toList, Value.IntV 30), ("pk".toList, Value.IntV 2)] =
      (c5tf, Except.error ("Primary key violation: pk".toList)) ∧
    rowVal (c5tf.rows.getD 0 []) "u".toList = Value.IntV 30 ∧
    rowVal (c5tf.rows.getD 0 []) "pk".toList =
      rowVal (exTwoRows.rows.getD 0 []) "pk".toList ∧
    (dhas "u".toList exTwoRows.indexes = true →
      Value.IntV 1 ∈ idxFind (getIdx c5tf "u".toList) (Value.IntV 30)) :=
  C5_partial_update exTwoRows [("pk".toList, Value.IntV 1)] "u".toList "pk".toList
    (Value.IntV 30) (Value.IntV 2) (colIntU "u".toList) (colIntPK "pk".toList)
    0 (Value.IntV 1) ("Primary key violation: pk".toList)
    rfl (by decide) rfl rfl rfl rfl (by decide) rfl rfl

/-! ### Insert-side invariant lemmas -/

theorem dget_isSome_iff_mem {α : Type} {k : Str} {d : List (Str × α)} :
    (∃ v, dget k d = some v) ↔ k ∈ dkeys d :=
  dhas_iff.symm.trans (dhas_eq_mem_dkeys k d)

theorem dget_of_mem_nodup {α : Type} {k : Str} {v : α} {d : List (Str × α)}
    (hnd : (d.map Prod.fst).Nodup) (hm : (k, v) ∈ d) : dget k d = some v := by
  induction d with
  | nil => simp at hm
  | cons e rest ih =>
    rw [List.map_cons] at hnd
    obtain ⟨hne, hnd2⟩ := List.nodup_cons.mp hnd
    rcases List.mem_cons.mp hm with h | h
    · subst h
      simp [dget]
    · have hk : e.1 ≠ k := by
        intro hh
        exact hne (hh ▸ List.mem_map.mpr ⟨(k, v), h, rfl⟩)
      simp [dget, hk, ih hnd2 h]

theorem insertIndexes_cons_none {e : Str × Value} {ind : List (Str × Index)}
    (rest : Values) (rid : Int) (hd : dget e.1 ind = none) :
    insertIndexes (e :: rest) rid ind = insertIndexes rest rid ind := by
  show insertIndexes rest rid (match dget e.1 ind with
    | some idx => dset e.1 (idxAdd idx e.2 (IntV rid)) ind
    | none => ind) = insertIndexes rest rid ind
  rw [hd]

theorem insertIndexes_cons_some {e : Str × Value} {ind : List (Str × Index)}
    {idx : Index} (rest : Values) (rid : Int) (hd : dget e.1 ind = some idx) :
    insertIndexes (e :: rest) rid ind =
      insertIndexes rest rid (dset e.1 (idxAdd idx e.2 (IntV rid)) ind) := by
  show insertIndexes rest rid (match dget e.1 ind with
    | some idx => dset e.1 (idxAdd idx e.2 (IntV rid)) ind
    | none => ind) = _
  rw [hd]

theorem insertIndexes_dkeys (vs : Values) (rid : Int) :
    ∀ ind, dkeys (insertIndexes vs rid ind) = dkeys ind := by
  induction vs with
  | nil => intro ind; rfl
  | cons e rest ih =>
    intro ind
    cases hd : dget e.1 ind with
    | none => rw [insertIndexes_cons_none rest rid hd]; exact ih ind
    | some idx =>
      rw [insertIndexes_cons_some rest rid hd, ih _]
      exact dkeys_dset_of_mem _ (mem_dkeys_of_dget hd)

theorem insertIndexes_not_mem (vs : Values) (rid : Int) {c : Str}
    (hc : c ∉ vs.map Prod.fst) :
    ∀ ind, dget c (insertIndexes vs rid ind) = dget c ind := by
  induction vs with
  | nil => intro ind; rfl
  | cons e rest ih =>
    intro ind
    rw [List.map_cons] at hc
    have hne : e.1 ≠ c := fun h => hc (h ▸ List.mem_cons_self _ _)
    have hc2 : c ∉ rest.map Prod.fst := fun h => hc (List.mem_cons_of_mem _ h)
    cases hd : dget e.1 ind with
    | none => rw [insertIndexes_cons_none rest rid hd]; exact ih hc2 ind
    | some idx =>
      rw [insertIndexes_cons_some rest rid hd, ih hc2 _]
      exact dget_dset_ne _ _ (Ne.symm hne)

theorem insertIndexes_mem {vs : Values} {c : Str} {v : Value} (rid : Int)
    (hnd : (vs.map Prod.fst).Nodup) (hm : (c, v) ∈ vs) :
    ∀ ind idx, dget c ind = some idx →
      dget c (insertIndexes vs rid ind) = some (idxAdd idx v (IntV rid)) := by
  induction vs with
  | nil => simp at hm
  | cons e rest ih =>
    intro ind idx hidx
    rw [List.map_cons] at hnd
    obtain ⟨hne, hnd2⟩ := List.nodup_cons.mp hnd
    rcases List.mem_cons.mp hm with h | h
    · subst h
      rw [insertIndexes_cons_some rest rid hidx]
      have hcm : c ∉ rest.map Prod.fst := hne
      rw [insertIndexes_not_mem rest rid hcm _]
      exact dget_dset_same _ _ _
    · have hce : e.1 ≠ c := by
        intro hh
        exact hne (hh ▸ List.mem_map.mpr ⟨(c, v), h, rfl⟩)
      cases hd : dget e.1 ind with
      | none => rw [insertIndexes_cons_none rest rid hd]; exact ih hnd2 h ind idx hidx
      | some idx0 =>
        rw [insertIndexes_cons_some rest rid hd]
        exact ih hnd2 h _ idx (by rw [dget_dset_ne _ _ (Ne.symm hce)]; exact hidx)

theorem buildRow_shape (t : Table) (vs : Values)
    (hnd : (dkeys t.columns).Nodup) (hrk : rowIdKey ∉ dkeys t.columns) :
    buildRow t vs = (rowIdKey, IntV t.next_row_id) ::
      t.columns.map (fun e => (e.1, (dget e.1 vs).getD NullV)) := by
  unfold buildRow
  have := foldl_dset_fresh Prod.fst (fun e => (dget e.1 vs).getD NullV)
    t.columns [(rowIdKey, IntV t.next_row_id)] hnd
    (by
      intro k hk
      simp [dkeys]
      intro hkr
      exact hrk (hkr ▸ hk))
  simpa using this

theorem buildRow_dkeys (t : Table) (vs : Values)
    (hnd : (dkeys t.columns).Nodup) (hrk : rowIdKey ∉ dkeys t.columns) :
    dkeys (buildRow t vs) = rowIdKey :: dkeys t.columns := by
  rw [buildRow_shape t vs hnd hrk]
  show rowIdKey :: dkeys (t.columns.map fun e => (e.1, (dget e.1 vs).getD NullV)) = _
  congr 1
  unfold dkeys
  rw [List.map_map]
  exact List.map_congr_left (fun e _ => rfl)

theorem buildRow_rowIdVal (t : Table) (vs : Values)
    (hnd : (dkeys t.columns).Nodup) (hrk : rowIdKey ∉ dkeys t.columns) :
    dget rowIdKey (buildRow t vs) = some (IntV t.next_row_id) := by
  rw [buildRow_shape t vs hnd hrk]
  simp [dget]

theorem buildRow_val (t : Table) (vs : Values) {c : Str}
    (hnd : (dkeys t.columns).Nodup) (hrk : rowIdKey ∉ dkeys t.columns)
    (hc : c ∈ dkeys t.columns) :
    dget c (buildRow t vs) = some ((dget c vs).getD NullV) := by
  rw [buildRow_shape t vs hnd hrk]
  have hcne : rowIdKey ≠ c := fun h => hrk (h ▸ hc)
  have : dget c (t.columns.map (fun e => (e.1, (dget e.1 vs).getD NullV))) =
      if c ∈ t.columns.map Prod.fst then some ((dget c vs).getD NullV) else none :=
    dget_map_keyfun Prod.fst (fun k => (dget k vs).getD NullV) t.columns c
  simp only [dget, hcne, if_false]
  have hc2 : c ∈ List.map Prod.fst t.columns := hc
  rw [this, if_pos hc2]

theorem insert_row_ok_checks {t t' : Table} {vs : Values} {rid : Int}
    (h : insert_row t vs = (t', Except.ok rid)) :
    checkTypes t vs = Except.ok () ∧ insertCheckConstraints t vs = Except.ok () := by
  unfold insert_row at h
  cases h1 : checkTypes t vs with
  | error e1 => rw [h1] at h; simp at h
  | ok u1 =>
    rw [h1] at h
    cases h2 : insertCheckConstraints t vs with
    | error e2 => rw [h2] at h; simp at h
    | ok u2 =>
      cases u1
      cases u2
      exact ⟨rfl, rfl⟩

theorem insertCheckConstraints_ok_each {t : Table} {vs : Values}
    (h : insertCheckConstraints t vs = Except.ok ()) :
    ∀ cv ∈ vs, ∀ col, dget cv.1 t.columns = some col →
      constraintCheck col cv.1 cv.2 (getIdx t cv.1) = none := by
  induction vs with
  | nil => simp
  | cons e rest ih =>
    rcases e with ⟨c0, v0⟩
    have hstep : insertCheckConstraints t ((c0, v0) :: rest) =
        (match dget c0 t.columns with
        | none => insertCheckConstraints t rest
        | some col =>
          match constraintCheck col c0 v0 (getIdx t c0) with
          | some e => Except.error e
          | none => insertCheckConstraints t rest) := rfl
    intro cv hcv col hcol
    rcases List.mem_cons.mp hcv with hh | hh
    · obtain rfl := hh
      have hcol2 : dget c0 t.columns = some col := hcol
      rw [hstep, hcol2] at h
      replace h : (match constraintCheck col c0 v0 (getIdx t c0) with
        | some e => Except.error e
        | none => insertCheckConstraints t rest) = Except.ok () := h
      cases hck : constraintCheck col c0 v0 (getIdx t c0) with
      | some e2 => rw [hck] at h; simp at h
      | none => exact hck ▸ rfl
    · rw [hstep] at h
      cases hcol0 : dget c0 t.columns with
      | none =>
        rw [hcol0] at h
        exact ih h cv hh col hcol
      | some col0 =>
        rw [hcol0] at h
        replace h : (match constraintCheck col0 c0 v0 (getIdx t c0) with
          | some e => Except.error e
          | none => insertCheckConstraints t rest) = Except.ok () := h
        cases hck : constraintCheck col0 c0 v0 (getIdx t c0) with
        | some e2 => rw [hck] at h; simp at h
        | none =>
          rw [hck] at h
          exact ih h cv hh col hcol

theorem constraintCheck_none_find {col : Column} {c : Str} {v : Value} {idx : Index}
    (hcon : col.constraint = Constraint.PRIMARY_KEY ∨ col.constraint = Constraint.UNIQUE)
    (hnn : v ≠ NullV)
    (h : constraintCheck col c v idx = none) : idxFind idx v = [] := by
  unfold constraintCheck at h
  rcases hcon with hc | hc
  · rw [if_pos hc, if_neg hnn] at h
    by_cases hf : idxFind idx v = []
    · exact hf
    · rw [if_pos hf] at h
      simp at h
  · by_cases hpk : col.constraint = Constraint.PRIMARY_KEY
    · rw [if_pos hpk, if_neg hnn] at h
      by_cases hf : idxFind idx v = []
      · exact hf
      · rw [if_pos hf] at h
        simp at h
    · rw [if_neg hpk, if_pos ⟨hc, hnn⟩] at h
      by_cases hf : idxFind idx v = []
      · exact hf
      · rw [if_pos hf] at h
        simp at h

theorem dget_map_pair {ι : Type} (key : ι → Str) {l : List ι} (c : Str)
    (hnd : (l.map key).Nodup) (v : ι) :
    dget c (l.map fun e => (key e, e)) = some v ↔ (v ∈ l ∧ key v = c) := by
  induction l with
  | nil => simp [dget]
  | cons e rest ih =>
    rw [List.map_cons] at hnd
    obtain ⟨hne, hnd2⟩ := List.nodup_cons.mp hnd
    by_cases he : key e = c
    · simp only [List.map_cons, dget, he, if_true]
      constructor
      · intro hv
        obtain rfl : e = v := by simpa using hv
        exact ⟨List.mem_cons_self _ _, he⟩
      · rintro ⟨hm, hkv⟩
        rcases List.mem_cons.mp hm with rfl | hm2
        · rfl
        · exact absurd (he ▸ hkv ▸ List.mem_map.mpr ⟨v, hm2, rfl⟩) hne
    · simp only [List.map_cons, dget, he, if_false, ih hnd2]
      constructor
      · rintro ⟨hm, hkv⟩
        exact ⟨List.mem_cons_of_mem _ hm, hkv⟩
      · rintro ⟨hm, hkv⟩
        rcases List.mem_cons.mp hm with rfl | hm2
        · exact absurd hkv he
        · exact ⟨hm2, hkv⟩

theorem mkTable_inv (nm : Str) (cols : List Column) (hwf : WFcols cols) :
    Inv (mkTable nm cols) := by
  have hcols := mkTable_columns nm cols hwf.1
  have hidx := mkTable_indexes nm cols hwf.1
  have hrows : (mkTable nm cols).rows = [] := rfl
  have hkeysC : dkeys (mkTable nm cols).columns = cols.map Column.name := by
    rw [hcols]
    unfold dkeys
    rw [List.map_map]
    exact List.map_congr_left (fun e _ => rfl)
  have hidxget : ∀ c idx, dget c (mkTable nm cols).indexes = some idx → idx = [] := by
    intro c idx h
    rw [hidx, dget_map_keyfun Column.name (fun _ => ([] : Index)) _ c] at h
    by_cases hc : c ∈ (cols.filter (fun c => decide (c.constraint = Constraint.PRIMARY_KEY ∨
        c.constraint = Constraint.UNIQUE))).map Column.name
    · rw [if_pos hc] at h
      exact (Option.some.inj h).symm
    · rw [if_neg hc] at h
      simp at h
  refine ⟨?_, ?_, ?_, ?_, ?_, ?_, ?_, ?_, ?_, ?_, ?_, ?_⟩
  · exact le_refl 1
  · rw [hkeysC]; exact hwf.1
  · rw [hkeysC]; exact hwf.2
  · intro c
    constructor
    · rintro ⟨idx, hg⟩
      rw [hidx, dget_map_keyfun Column.name (fun _ => ([] : Index)) _ c] at hg
      by_cases hc : c ∈ (cols.filter (fun c => decide (c.constraint = Constraint.PRIMARY_KEY ∨
          c.constraint = Constraint.UNIQUE))).map Column.name
      · rcases List.mem_map.mp hc with ⟨col, hcolmem, hname⟩
        rcases List.mem_filter.mp hcolmem with ⟨hmem, hP⟩
        refine ⟨col, ?_, ?_⟩
        · rw [hcols]
          exact (dget_map_pair Column.name c hwf.1 col).mpr ⟨hmem, hname⟩
        · simpa using hP
      · rw [if_neg hc] at hg
        simp at hg
    · rintro ⟨col, hg, hP⟩
      rw [hcols] at hg
      obtain ⟨hmem, hname⟩ := (dget_map_pair Column.name c hwf.1 col).mp hg
      refine ⟨[], ?_⟩
      rw [hidx, dget_map_keyfun Column.name (fun _ => ([] : Index)) _ c, if_pos ?_]
      exact List.mem_map.mpr ⟨col, List.mem_filter.mpr ⟨hmem, by simpa using hP⟩, hname⟩
  · intro r hr
    rw [hrows] at hr
    simp at hr
  · intro r hr
    rw [hrows] at hr
    simp at hr
  · rw [hrows]
    simp
  · intro c idx h
    rw [hidxget c idx h]
    simp
  · intro c idx h v ids hent
    rw [hidxget c idx h] at hent
    simp at hent
  · intro c idx h v ids hent
    rw [hidxget c idx h] at hent
    simp at hent
  · intro c idx h r hr
    rw [hrows] at hr
    simp at hr
  · intro c idx h v ids hent
    rw [hidxget c idx h] at hent
    simp at hent

/-- Inserting successfully preserves the invariant. -/
theorem insert_ok_inv {t t' : Table} {vs : Values} {rid : Int}
    (hinv : Inv t) (hnd : (vs.map Prod.fst).Nodup)
    (h : insert_row t vs = (t', Except.ok rid)) : Inv t' := by
  obtain ⟨hrid, hcols, hname, hrows, hnext, hidx⟩ := insert_row_ok t t' vs rid h
  obtain ⟨hty, hcks⟩ := insert_row_ok_checks h
  subst hrid
  have hBkeys := buildRow_dkeys t vs hinv.colsNodup hinv.noRowIdCol
  have hBid := buildRow_rowIdVal t vs hinv.colsNodup hinv.noRowIdCol
  have hBrowId : rowId (buildRow t vs) = IntV t.next_row_id := by
    unfold rowId rowVal
    rw [hBid]
    rfl
  have holdid : ∀ r ∈ t.rows, ∃ n : Int, rowId r = IntV n ∧ 1 ≤ n ∧ n < t.next_row_id := by
    intro r hr
    obtain ⟨n, hg, h1, h2⟩ := hinv.idsWF r hr
    refine ⟨n, ?_, h1, h2⟩
    unfold rowId rowVal
    rw [hg]
    rfl
  have hIkeys : dkeys t'.indexes = dkeys t.indexes := by
    rw [hidx]
    exact insertIndexes_dkeys vs _ _
  have hsplit : ∀ c idx', dget c t'.indexes = some idx' →
      (dget c t.indexes = some idx' ∧ c ∉ vs.map Prod.fst) ∨
      (∃ v idx, (c, v) ∈ vs ∧ dget c t.indexes = some idx ∧
        idx' = idxAdd idx v (IntV t.next_row_id)) := by
    intro c idx' hg
    by_cases hc : c ∈ vs.map Prod.fst
    · right
      rcases List.mem_map.mp hc with ⟨cv, hm0, hfst⟩
      rcases cv with ⟨c0, v⟩
      have hm : (c, v) ∈ vs := by
        have : c0 = c := hfst
        rw [← this]
        exact hm0
      cases hg0 : dget c t.indexes with
      | none =>
        exfalso
        have hnm : c ∉ dkeys t.indexes := by
          intro hmem
          rcases dget_isSome_iff_mem.mpr hmem with ⟨w, hw⟩
          rw [hg0] at hw
          simp at hw
        have hnm2 : c ∉ dkeys t'.indexes := by
          rw [hIkeys]
          exact hnm
        rw [dget_eq_none_of_not_mem hnm2] at hg
        simp at hg
      | some idx =>
        refine ⟨v, idx, hm, hg0 ▸ rfl, ?_⟩
        have := insertIndexes_mem t.next_row_id hnd hm t.indexes idx hg0
        rw [hidx, this] at hg
        exact (Option.some.inj hg).symm
    · left
      refine ⟨?_, hc⟩
      rw [← show dget c t'.indexes = dget c t.indexes by
        rw [hidx]; exact insertIndexes_not_mem vs _ hc _]
      exact hg
  have hidxcol : ∀ c : Str, (∃ idx, dget c t.indexes = some idx) →
      ∃ col, dget c t.columns = some col ∧
        (col.constraint = Constraint.PRIMARY_KEY ∨ col.constraint = Constraint.UNIQUE) :=
    fun c => (hinv.idxIffCon c).mp
  refine ⟨?_, ?_, ?_, ?_, ?_, ?_, ?_, ?_, ?_, ?_, ?_, ?_⟩
  · rw [hnext]
    have := hinv.nextPos
    omega
  · rw [hcols]
    exact hinv.colsNodup
  · rw [hcols]
    exact hinv.noRowIdCol
  · intro c
    have h1 : (∃ idx, dget c t'.indexes = some idx) ↔ (∃ idx, dget c t.indexes = some idx) := by
      rw [dget_isSome_iff_mem, dget_isSome_iff_mem, hIkeys]
    rw [hcols, h1]
    exact hinv.idxIffCon c
  · intro r hr
    rw [hrows] at hr
    rw [hcols]
    rcases List.mem_append.mp hr with h2 | h2
    · exact hinv.rowsKeys r h2
    · obtain rfl : r = buildRow t vs := by simpa using h2
      exact hBkeys
  · intro r hr
    rw [hrows] at hr
    rcases List.mem_append.mp hr with h2 | h2
    · obtain ⟨n, hg, hp, hlt⟩ := hinv.idsWF r h2
      exact ⟨n, hg, hp, by rw [hnext]; omega⟩
    · obtain rfl : r = buildRow t vs := by simpa using h2
      exact ⟨t.next_row_id, hBid, hinv.nextPos, by rw [hnext]; omega⟩
  · rw [hrows, List.map_append]
    apply List.Nodup.append hinv.idsNodup (by simp)
    intro a ha hb
    simp only [List.map_cons, List.map_nil, List.mem_singleton] at hb
    rcases List.mem_map.mp ha with ⟨r, hr, hra⟩
    obtain ⟨n, hn, _, hlt⟩ := holdid r hr
    rw [hb, hBrowId] at hra
    have h6 : IntV n = IntV t.next_row_id := hn.symm.trans hra
    have h7 : n = t.next_row_id := Value.IntV.inj h6
    omega
  · intro c idx' hg
    rcases hsplit c idx' hg with ⟨hgo, _⟩ | ⟨v, idx, hm, hg0, heq⟩
    · exact hinv.keysPW c idx' hgo
    · subst heq
      rcases idxAdd_keys idx v (IntV t.next_row_id) with hk | ⟨hk, hall⟩
      · rw [hk]
        exact hinv.keysPW c idx hg0
      · rw [hk]
        refine List.pairwise_append.mpr ⟨hinv.keysPW c idx hg0, by simp, ?_⟩
        intro a ha b hb
        rw [List.mem_singleton.mp hb]
        exact hall a ha
  · intro c idx' hg v0 ids0 hent
    rcases hsplit c idx' hg with ⟨hgo, _⟩ | ⟨v, idx, hm, hg0, heq⟩
    · exact hinv.entryPW c idx' hgo v0 ids0 hent
    · subst heq
      rcases mem_idxAdd (v0, ids0) hent with h2 | ⟨ids1, hent1, hpe, hids0⟩ | ⟨hv0, hids0⟩
      · exact hinv.entryPW c idx hg0 v0 ids0 h2
      · simp only at hids0
        rw [hids0]
        refine List.pairwise_append.mpr ⟨hinv.entryPW c idx hg0 v0 ids1 hent1, by simp, ?_⟩
        intro a ha b hb
        rw [List.mem_singleton.mp hb]
        obtain ⟨r, hr, hrid2, _⟩ := hinv.noStale c idx hg0 v0 ids1 hent1 a ha
        obtain ⟨n, hn, _, hlt⟩ := holdid r hr
        rw [← hrid2, hn]
        simp [pyEq]
        omega
      · simp only at hv0 hids0
        rw [hids0]
        simp
  · intro c idx' hg v0 ids0 hent id hid
    rcases hsplit c idx' hg with ⟨hgo, _⟩ | ⟨v, idx, hm, hg0, heq⟩
    · obtain ⟨r, hr, h1, h2⟩ := hinv.noStale c idx' hgo v0 ids0 hent id hid
      exact ⟨r, by rw [hrows]; exact List.mem_append_left _ hr, h1, h2⟩
    · have hcmem : c ∈ dkeys t.columns := by
        obtain ⟨col, hcol, _⟩ := hidxcol c ⟨idx, hg0⟩
        exact mem_dkeys_of_dget hcol
      have hBval : dget c (buildRow t vs) = some ((dget c vs).getD NullV) :=
        buildRow_val t vs hinv.colsNodup hinv.noRowIdCol hcmem
      have hvs : dget c vs = some v := dget_of_mem_nodup hnd hm
      have hBv : rowVal (buildRow t vs) c = v := by
        unfold rowVal
        rw [hBval, hvs]
        rfl
      subst heq
      rcases mem_idxAdd (v0, ids0) hent with h2 | ⟨ids1, hent1, hpe, hids0⟩ | ⟨hv0, hids0⟩
      · obtain ⟨r, hr, ha, hb⟩ := hinv.noStale c idx hg0 v0 ids0 h2 id hid
        exact ⟨r, by rw [hrows]; exact List.mem_append_left _ hr, ha, hb⟩
      · simp only at hids0
        rw [hids0] at hid
        rcases List.mem_append.mp hid with h3 | h3
        · obtain ⟨r, hr, ha, hb⟩ := hinv.noStale c idx hg0 v0 ids1 hent1 id h3
          exact ⟨r, by rw [hrows]; exact List.mem_append_left _ hr, ha, hb⟩
        · obtain rfl : id = IntV t.next_row_id := by simpa using h3
          refine ⟨buildRow t vs, ?_, hBrowId, ?_⟩
          · rw [hrows]
            exact List.mem_append_right _ (List.mem_singleton.mpr rfl)
          · rw [hBv]
            exact pyEq_symm hpe
      · simp only at hv0 hids0
        rw [hids0] at hid
        obtain rfl : id = IntV t.next_row_id := by simpa using hid
        refine ⟨buildRow t vs, ?_, hBrowId, ?_⟩
        · rw [hrows]
          exact List.mem_append_right _ (List.mem_singleton.mpr rfl)
        · rw [hBv, hv0]
          exact pyEq_refl v
  · intro c idx' hg r hr hnn
    rw [hrows] at hr
    rcases List.mem_append.mp hr with h2 | h2
    · rcases hsplit c idx' hg with ⟨hgo, _⟩ | ⟨v, idx, hm, hg0, heq⟩
      · exact hinv.presence c idx' hgo r h2 hnn
      · subst heq
        have hold := hinv.presence c idx hg0 r h2 hnn
        by_cases hpeq : pyEq (rowVal r c) v = true
        · rw [idxFind_add_self idx (IntV t.next_row_id) hpeq]
          exact List.mem_append_left _ hold
        · rw [idxFind_add_other idx (IntV t.next_row_id) (by
            cases hb : pyEq (rowVal r c) v
            · rfl
            · exact absurd hb hpeq)]
          exact hold
    · obtain rfl : r = buildRow t vs := by simpa using h2
      rcases hsplit c idx' hg with ⟨hgo, hnm⟩ | ⟨v, idx, hm, hg0, heq⟩
      · exfalso
        have hcmem : c ∈ dkeys t.columns := by
          obtain ⟨col, hcol, _⟩ := hidxcol c ⟨idx', hgo⟩
          exact mem_dkeys_of_dget hcol
        have hBval : dget c (buildRow t vs) = some ((dget c vs).getD NullV) :=
          buildRow_val t vs hinv.colsNodup hinv.noRowIdCol hcmem
        have hvs : dget c vs = none := dget_eq_none_of_not_mem hnm
        apply hnn
        unfold rowVal
        rw [hBval, hvs]
        rfl
      · have hcmem : c ∈ dkeys t.columns := by
          obtain ⟨col, hcol, _⟩ := hidxcol c ⟨idx, hg0⟩
          exact mem_dkeys_of_dget hcol
        have hBval : dget c (buildRow t vs) = some ((dget c vs).getD NullV) :=
          buildRow_val t vs hinv.colsNodup hinv.noRowIdCol hcmem
        have hvs : dget c vs = some v := dget_of_mem_nodup hnd hm
        have hBv : rowVal (buildRow t vs) c = v := by
          unfold rowVal
          rw [hBval, hvs]
          rfl
        subst heq
        rw [hBv, idxFind_add_self idx (IntV t.next_row_id) (pyEq_refl v), hBrowId]
        exact List.mem_append_right _ (List.mem_singleton.mpr rfl)
  · intro c idx' hg v0 ids0 hent hv0nn
    rcases hsplit c idx' hg with ⟨hgo, _⟩ | ⟨v, idx, hm, hg0, heq⟩
    · exact hinv.uniqEntry c idx' hgo v0 ids0 hent hv0nn
    · subst heq
      rcases mem_idxAdd (v0, ids0) hent with h2 | ⟨ids1, hent1, hpe, hids0⟩ | ⟨hv0, hids0⟩
      · exact hinv.uniqEntry c idx hg0 v0 ids0 h2 hv0nn
      · simp only at hids0
        have hvnn : v ≠ NullV := by
          intro hv
          exact hv0nn (pyEq_null_right (hv ▸ hpe))
        obtain ⟨col, hcol, hcon⟩ := hidxcol c ⟨idx, hg0⟩
        have hck := insertCheckConstraints_ok_each hcks (c, v) hm col hcol
        have hgidx : getIdx t c = idx := by
          unfold getIdx
          rw [hg0]
          rfl
        rw [hgidx] at hck
        have hfind : idxFind idx v = [] := constraintCheck_none_find hcon hvnn hck
        have hids1 : ids1 = [] := by
          rw [← idxFind_of_entry (hinv.keysPW c idx hg0) hent1 hpe]
          exact hfind
        rw [hids0, hids1]
        simp
      · simp only at hids0
        rw [hids0]
        simp

/-! ### Delete-side invariant lemmas -/

theorem rowEq_refl_of_nodup {r : Row} (hnd : (dkeys r).Nodup) : rowEq r r = true := by
  unfold rowEq
  rw [Bool.and_eq_true]
  constructor
  · rw [List.all_eq_true]
    intro e he
    rw [dget_of_mem_nodup hnd (by exact he)]
    exact pyEq_refl e.2
  · rw [List.all_eq_true]
    intro e he
    unfold dhas
    rw [dget_of_mem_nodup hnd (by exact he)]
    rfl

theorem rowEq_rowId {x r : Row} (he : rowEq x r = true)
    {n m : Int} (hx : dget rowIdKey x = some (IntV n))
    (hr : dget rowIdKey r = some (IntV m)) : n = m := by
  unfold rowEq at he
  rw [Bool.and_eq_true, List.all_eq_true] at he
  have := he.1 (rowIdKey, IntV n) (dget_mem hx)
  rw [hr] at this
  simpa [pyEq] using this

theorem inv_rowId_inj {t : Table} (hinv : Inv t) {x y : Row}
    (hx : x ∈ t.rows) (hy : y ∈ t.rows) (h : rowId x = rowId y) : x = y :=
  List.inj_on_of_nodup_map hinv.idsNodup hx hy h

theorem inv_rowEq_eq {t : Table} (hinv : Inv t) {x r : Row}
    (hx : x ∈ t.rows) (hr : r ∈ t.rows) (he : rowEq x r = true) : x = r := by
  obtain ⟨n, hgx, _, _⟩ := hinv.idsWF x hx
  obtain ⟨m, hgr, _, _⟩ := hinv.idsWF r hr
  have hnm : n = m := rowEq_rowId he hgx hgr
  apply inv_rowId_inj hinv hx hr
  unfold rowId rowVal
  rw [hgx, hgr, hnm]

theorem inv_rows_nodup {t : Table} (hinv : Inv t) : t.rows.Nodup :=
  List.Nodup.of_map rowId hinv.idsNodup

theorem inv_row_keys_nodup {t : Table} (hinv : Inv t) {r : Row} (hr : r ∈ t.rows) :
    (dkeys r).Nodup := by
  rw [hinv.rowsKeys r hr]
  exact List.nodup_cons.mpr ⟨hinv.noRowIdCol, hinv.colsNodup⟩

theorem removeFirstRow_sublist (rs : List Row) (r : Row) :
    (removeFirstRow rs r).Sublist rs := by
  induction rs with
  | nil => simp [removeFirstRow]
  | cons x rest ih =>
    by_cases hx : rowEq x r = true
    · unfold removeFirstRow
      rw [if_pos hx]
      exact List.sublist_cons_self x rest
    · unfold removeFirstRow
      rw [if_neg hx]
      exact List.Sublist.cons₂ x ih

theorem mem_removeFirstRow {rs : List Row} {r y : Row}
    (hy : y ∈ rs) (hne : rowEq y r = false) : y ∈ removeFirstRow rs r := by
  induction rs with
  | nil => simp at hy
  | cons x rest ih =>
    by_cases hx : rowEq x r = true
    · unfold removeFirstRow
      rw [if_pos hx]
      rcases List.mem_cons.mp hy with rfl | hy2
      · rw [hx] at hne
        simp at hne
      · exact hy2
    · unfold removeFirstRow
      rw [if_neg hx]
      rcases List.mem_cons.mp hy with rfl | hy2
      · exact List.mem_cons_self _ _
      · exact List.mem_cons_of_mem _ (ih hy2)

/-- After removing `rid` from the entry of `v`, no id `==` to `rid` remains
anywhere in the index, provided ids `==` to `rid` only ever sat in entries
keyed `==` to `v`. -/
theorem idxRemove_removes {idx : Index} {v rid : Value}
    (hkpw : (idx.map Prod.fst).Pairwise (fun a b => pyEq a b = false))
    (hepw : ∀ w ids, (w, ids) ∈ idx → ids.Pairwise (fun a b => pyEq a b = false))
    (honly : ∀ w ids, (w, ids) ∈ idx → ∀ x ∈ ids, pyEq x rid = true → pyEq w v = true) :
    ∀ e2 ∈ idxRemove idx v rid, ∀ x ∈ e2.2, pyEq x rid = false := by
  induction idx with
  | nil => simp [idxRemove]
  | cons e rest ih =>
    rcases e with ⟨k, ids⟩
    rw [List.map_cons, List.pairwise_cons] at hkpw
    obtain ⟨hk0, hkpw2⟩ := hkpw
    by_cases hkv : pyEq k v = true
    · have hrest : ∀ w ids2, (w, ids2) ∈ rest → ∀ x ∈ ids2, pyEq x rid = false := by
        intro w ids2 hm x hx
        by_contra hc
        have hxr : pyEq x rid = true := by
          cases hb : pyEq x rid
          · exact absurd hb hc
          · rfl
        have hwv : pyEq w v = true := honly w ids2 (List.mem_cons_of_mem _ hm) x hx hxr
        have hkw : pyEq k w = true := pyEq_trans hkv (pyEq_symm hwv)
        have := hk0 w (List.mem_map.mpr ⟨(w, ids2), hm, rfl⟩)
        rw [this] at hkw
        simp at hkw
      intro e2 he2 x hx
      by_cases hin : ids.any (fun y => pyEq y rid) = true
      · rcases hrem : pyListRemove ids rid with _ | ⟨i0, irest⟩
        · rw [show idxRemove ((k, ids) :: rest) v rid = rest by
            unfold idxRemove; rw [if_pos hkv, if_pos hin, hrem]] at he2
          exact hrest e2.1 e2.2 (by rcases e2 with ⟨a, b⟩; exact he2) x hx
        · rw [show idxRemove ((k, ids) :: rest) v rid = (k, pyListRemove ids rid) :: rest by
            unfold idxRemove; rw [if_pos hkv, if_pos hin, hrem]] at he2
          rcases List.mem_cons.mp he2 with rfl | he3
          · exact pyListRemove_no_pyEq (hepw k ids (List.mem_cons_self _ _)) x hx
          · exact hrest e2.1 e2.2 (by rcases e2 with ⟨a, b⟩; exact he3) x hx
      · rw [show idxRemove ((k, ids) :: rest) v rid = (k, ids) :: rest by
          unfold idxRemove; rw [if_pos hkv, if_neg hin]] at he2
        rcases List.mem_cons.mp he2 with rfl | he3
        · cases hb : pyEq x rid
          · rfl
          · exfalso
            exact hin (List.any_eq_true.mpr ⟨x, hx, hb⟩)
        · exact hrest e2.1 e2.2 (by rcases e2 with ⟨a, b⟩; exact he3) x hx
    · intro e2 he2 x hx
      rw [show idxRemove ((k, ids) :: rest) v rid = (k, ids) :: idxRemove rest v rid by
        simp only [idxRemove]
        rw [if_neg hkv]] at he2
      rcases List.mem_cons.mp he2 with rfl | he3
      · cases hb : pyEq x rid
        · rfl
        · exfalso
          have := honly k ids (List.mem_cons_self _ _) x hx hb
          exact hkv this
      · exact ih hkpw2
          (fun w ids2 hm => hepw w ids2 (List.mem_cons_of_mem _ hm))
          (fun w ids2 hm => honly w ids2 (List.mem_cons_of_mem _ hm))
          e2 he3 x hx

theorem inv_pyEq_rowId {t : Table} (hinv : Inv t) {x y : Row}
    (hx : x ∈ t.rows) (hy : y ∈ t.rows)
    (h : pyEq (rowId x) (rowId y) = true) : x = y := by
  obtain ⟨n, hgn, _, _⟩ := hinv.idsWF x hx
  obtain ⟨m, hgm, _, _⟩ := hinv.idsWF y hy
  have hx2 : rowId x = IntV n := by
    unfold rowId rowVal
    rw [hgn]
    rfl
  have hy2 : rowId y = IntV m := by
    unfold rowId rowVal
    rw [hgm]
    rfl
  rw [hx2, hy2] at h
  have hnm : n = m := by simpa [pyEq] using h
  exact inv_rowId_inj hinv hx hy (by rw [hx2, hy2, hnm])

theorem inv_rowId_pyEq_false {t : Table} (hinv : Inv t) {x y : Row}
    (hx : x ∈ t.rows) (hy : y ∈ t.rows) (hne : x ≠ y) :
    pyEq (rowId x) (rowId y) = false := by
  cases hb : pyEq (rowId x) (rowId y)
  · rfl
  · exact absurd (inv_pyEq_rowId hinv hx hy hb) hne

theorem not_mem_removeFirstRow {rs : List Row} {r : Row} (hnd : rs.Nodup)
    (hiff : ∀ x ∈ rs, (rowEq x r = true ↔ x = r)) (hr : r ∈ rs) :
    r ∉ removeFirstRow rs r := by
  induction rs with
  | nil => simp [removeFirstRow]
  | cons x rest ih =>
    obtain ⟨hxn, hnd2⟩ := List.nodup_cons.mp hnd
    by_cases hxe : rowEq x r = true
    · have hx : x = r := (hiff x (List.mem_cons_self _ _)).mp hxe
      subst hx
      unfold removeFirstRow
      rw [if_pos hxe]
      exact hxn
    · have hx : x ≠ r := fun he => hxe ((hiff x (List.mem_cons_self _ _)).mpr he)
      unfold removeFirstRow
      rw [if_neg hxe]
      intro hmem
      rcases List.mem_cons.mp hmem with he | he
      · exact hx he.symm
      · have hrr : r ∈ rest := by
          rcases List.mem_cons.mp hr with h2 | h2
          · exact absurd h2.symm hx
          · exact h2
        exact ih hnd2 (fun y hy => hiff y (List.mem_cons_of_mem _ hy)) hrr he

/-- Deleting one snapshot row preserves the invariant; the other rows stay. -/
theorem deleteOneRow_inv {t : Table} {r : Row} (hinv : Inv t) (hr : r ∈ t.rows) :
    Inv (deleteOneRow t r) ∧
    (∀ y ∈ t.rows, y ≠ r → y ∈ (deleteOneRow t r).rows) := by
  have hiff : ∀ x ∈ t.rows, (rowEq x r = true ↔ x = r) := by
    intro x hx
    constructor
    · exact fun he => inv_rowEq_eq hinv hx hr he
    · rintro rfl
      exact rowEq_refl_of_nodup (inv_row_keys_nodup hinv hx)
  have hrows2 : (deleteOneRow t r).rows = removeFirstRow t.rows r := rfl
  have hsub : (deleteOneRow t r).rows.Sublist t.rows := by
    rw [hrows2]
    exact removeFirstRow_sublist t.rows r
  have hmem : ∀ y ∈ t.rows, y ≠ r → y ∈ (deleteOneRow t r).rows := by
    intro y hy hne
    rw [hrows2]
    refine mem_removeFirstRow hy ?_
    cases hb : rowEq y r
    · rfl
    · exact absurd ((hiff y hy).mp hb) hne
  have hnotr : r ∉ (deleteOneRow t r).rows := by
    rw [hrows2]
    exact not_mem_removeFirstRow (inv_rows_nodup hinv) hiff hr
  have hform : t.indexes.map (fun e =>
      if dhas e.1 r then (e.1, idxRemove e.2 (rowVal r e.1) (rowId r)) else e) =
      t.indexes.map (fun e =>
      (e.1, if dhas e.1 r then idxRemove e.2 (rowVal r e.1) (rowId r) else e.2)) :=
    List.map_congr_left (fun e he => by
      by_cases hh : dhas e.1 r = true <;> simp [hh])
  have hidq : ∀ c, dget c (deleteOneRow t r).indexes =
      (dget c t.indexes).map (fun idx =>
        if dhas c r then idxRemove idx (rowVal r c) (rowId r) else idx) := by
    intro c
    show dget c (t.indexes.map (fun e =>
      if dhas e.1 r then (e.1, idxRemove e.2 (rowVal r e.1) (rowId r)) else e)) = _
    rw [hform]
    exact dget_map_entry
      (fun k idx => if dhas k r then idxRemove idx (rowVal r k) (rowId r) else idx)
      t.indexes c
  have hsplit : ∀ c idx2, dget c (deleteOneRow t r).indexes = some idx2 →
      ∃ idx, dget c t.indexes = some idx ∧
        (idx2 = idxRemove idx (rowVal r c) (rowId r) ∨ idx2 = idx) := by
    intro c idx2 hg
    rw [hidq c] at hg
    cases hgo : dget c t.indexes with
    | none => rw [hgo] at hg; simp at hg
    | some idx =>
      rw [hgo] at hg
      refine ⟨idx, rfl, ?_⟩
      have hg2 : (if dhas c r = true then idxRemove idx (rowVal r c) (rowId r) else idx)
          = idx2 := Option.some.inj hg
      by_cases hh : dhas c r = true
      · left
        rw [if_pos hh] at hg2
        exact hg2.symm
      · right
        rw [if_neg hh] at hg2
        exact hg2.symm
  have honly : ∀ c idx, dget c t.indexes = some idx →
      ∀ w ids, (w, ids) ∈ idx → ∀ x ∈ ids, pyEq x (rowId r) = true →
        pyEq w (rowVal r c) = true := by
    intro c idx hg w ids hm x hx hxr
    obtain ⟨r3, hr3, hid3, hval3⟩ := hinv.noStale c idx hg w ids hm x hx
    have : r3 = r := inv_pyEq_rowId hinv hr3 hr (by rw [hid3]; exact hxr)
    subst this
    exact pyEq_symm hval3
  have hgone : ∀ c idx, dget c t.indexes = some idx →
      ∀ e2 ∈ idxRemove idx (rowVal r c) (rowId r), ∀ x ∈ e2.2,
        pyEq x (rowId r) = false := by
    intro c idx hg
    exact idxRemove_removes (hinv.keysPW c idx hg)
      (fun w ids hm => hinv.entryPW c idx hg w ids hm)
      (honly c idx hg)
  refine ⟨⟨?_, ?_, ?_, ?_, ?_, ?_, ?_, ?_, ?_, ?_, ?_, ?_⟩, hmem⟩
  · exact hinv.nextPos
  · exact hinv.colsNodup
  · exact hinv.noRowIdCol
  · intro c
    constructor
    · rintro ⟨idx2, hg⟩
      obtain ⟨idx, hgo, _⟩ := hsplit c idx2 hg
      exact (hinv.idxIffCon c).mp ⟨idx, hgo⟩
    · intro hcol
      obtain ⟨idx, hgo⟩ := (hinv.idxIffCon c).mpr hcol
      refine ⟨if dhas c r then idxRemove idx (rowVal r c) (rowId r) else idx, ?_⟩
      rw [hidq c, hgo]
      rfl
  · intro r2 hr2
    exact hinv.rowsKeys r2 (hsub.subset hr2)
  · intro r2 hr2
    exact hinv.idsWF r2 (hsub.subset hr2)
  · exact List.Nodup.sublist (List.Sublist.map rowId hsub) hinv.idsNodup
  · intro c idx2 hg
    obtain ⟨idx, hgo, hcase⟩ := hsplit c idx2 hg
    rcases hcase with rfl | heq
    · exact List.Pairwise.sublist (idxRemove_keys_sublist idx _ _) (hinv.keysPW c idx hgo)
    · rw [heq]
      exact hinv.keysPW c idx hgo
  · intro c idx2 hg v ids hent
    obtain ⟨idx, hgo, hcase⟩ := hsplit c idx2 hg
    rcases hcase with rfl | heq
    · obtain ⟨ids0, hm0, hsub0⟩ := mem_idxRemove (v, ids) hent
      exact List.Pairwise.sublist hsub0 (hinv.entryPW c idx hgo v ids0 hm0)
    · exact hinv.entryPW c idx hgo v ids (heq ▸ hent)
  · intro c idx2 hg v ids hent id hid
    obtain ⟨idx, hgo, hcase⟩ := hsplit c idx2 hg
    rcases hcase with rfl | heq
    · obtain ⟨ids0, hm0, hsub0⟩ := mem_idxRemove (v, ids) hent
      obtain ⟨r3, hr3, hid3, hval3⟩ :=
        hinv.noStale c idx hgo v ids0 hm0 id (hsub0.subset hid)
      have hner : r3 ≠ r := by
        intro hrr
        subst hrr
        have := hgone c idx hgo (v, ids) hent id hid
        rw [hid3] at this
        rw [pyEq_refl id] at this
        simp at this
      exact ⟨r3, hmem r3 hr3 hner, hid3, hval3⟩
    · have hent2 : (v, ids) ∈ idx := heq ▸ hent
      obtain ⟨r3, hr3, hid3, hval3⟩ := hinv.noStale c idx hgo v ids hent2 id hid
      have hner : r3 ≠ r := by
        intro hrr
        subst hrr
        -- the untouched-index case still cannot keep the removed id: the
        -- column is not in the row, impossible since rows hold all columns
        -- when the column is indexed; derive instead from dhas
        have hcolmem : c ∈ dkeys r3 := by
          obtain ⟨col, hcol, _⟩ := (hinv.idxIffCon c).mp ⟨idx, hgo⟩
          rw [hinv.rowsKeys r3 hr]
          exact List.mem_cons_of_mem _ (mem_dkeys_of_dget hcol)
        have hh : dhas c r3 = true := (dhas_eq_mem_dkeys c r3).mpr hcolmem
        have h5 := hidq c
        rw [hgo, hg] at h5
        have heq2 : idx = idxRemove idx (rowVal r3 c) (rowId r3) := by
          have h6 : idx2 =
              (if dhas c r3 = true then idxRemove idx (rowVal r3 c) (rowId r3) else idx) :=
            Option.some.inj h5
          rw [if_pos hh] at h6
          exact heq.symm.trans h6
        have := hgone c idx hgo (v, ids) (heq2 ▸ hent2) id hid
        rw [hid3] at this
        rw [pyEq_refl id] at this
        simp at this
      exact ⟨r3, hmem r3 hr3 hner, hid3, hval3⟩
  · intro c idx2 hg r2 hr2 hnn
    have hr2t : r2 ∈ t.rows := hsub.subset hr2
    have hner : r2 ≠ r := by
      intro hrr
      subst hrr
      exact hnotr hr2
    obtain ⟨idx, hgo, hcase⟩ := hsplit c idx2 hg
    have hold := hinv.presence c idx hgo r2 hr2t hnn
    rcases hcase with rfl | heq
    · exact mem_idxFind_remove hold (inv_rowId_pyEq_false hinv hr2t hr hner)
    · rw [heq]
      exact hold
  · intro c idx2 hg v ids hent hvnn
    obtain ⟨idx, hgo, hcase⟩ := hsplit c idx2 hg
    rcases hcase with rfl | heq
    · obtain ⟨ids0, hm0, hsub0⟩ := mem_idxRemove (v, ids) hent
      exact le_trans (List.Sublist.length_le hsub0)
        (hinv.uniqEntry c idx hgo v ids0 hm0 hvnn)
    · exact hinv.uniqEntry c idx hgo v ids (heq ▸ hent) hvnn

theorem deleteRowsAux_inv : ∀ (todo : List Row) (t : Table) (count : Int),
    Inv t → todo.Nodup → (∀ x ∈ todo, x ∈ t.rows) →
    Inv (deleteRowsAux t todo count).1 := by
  intro todo
  induction todo with
  | nil => intro t count hinv _ _; exact hinv
  | cons r rest ih =>
    intro t count hinv hnd hsub
    obtain ⟨hrn, hnd2⟩ := List.nodup_cons.mp hnd
    have hr : r ∈ t.rows := hsub r (List.mem_cons_self _ _)
    obtain ⟨hinv1, hmem1⟩ := deleteOneRow_inv hinv hr
    show Inv (deleteRowsAux (deleteOneRow t r) rest (count + 1)).1
    apply ih _ _ hinv1 hnd2
    intro x hx
    exact hmem1 x (hsub x (List.mem_cons_of_mem _ hx)) (fun hxr => hrn (hxr ▸ hx))

theorem delete_rows_inv {t : Table} (conds : Values) (hinv : Inv t) :
    Inv (delete_rows t conds).1 := by
  unfold delete_rows
  apply deleteRowsAux_inv _ _ _ hinv
  · unfold find_rows
    by_cases hc : conds = []
    · rw [if_pos hc]
      exact inv_rows_nodup hinv
    · rw [if_neg hc]
      exact (inv_rows_nodup hinv).filter _
  · intro x hx
    unfold find_rows at hx
    by_cases hc : conds = []
    · rw [if_pos hc] at hx
      exact hx
    · rw [if_neg hc] at hx
      exact List.mem_of_mem_filter hx

theorem dhas_dset_self {α : Type} (k : Str) (v : α) (d : List (Str × α)) :
    dhas k (dset k v d) = true :=
  dhas_iff.mpr ⟨v, dget_dset_same k v d⟩

theorem getIdx_setIdx_self (t : Table) (c : Str) (idx : Index) :
    getIdx (setIdx t c idx) c = idx := by
  show (dget c (dset c idx t.indexes)).getD [] = idx
  rw [dget_dset_same]
  rfl

theorem map_set_eq {α β : Type} (f : α → β) {l : List α} {p : Nat} {y : α}
    (hp : p < l.length) (h : f y = f l[p]) :
    (l.set p y).map f = l.map f := by
  apply List.ext_getElem
  · simp
  · intro i h1 h2
    simp only [List.getElem_map, List.getElem_set]
    by_cases hip : p = i
    · subst hip
      rw [if_pos rfl, h]
    · rw [if_neg hip]

theorem getD_eq_getElem_rows {l : List Row} {p : Nat} (hp : p < l.length) :
    l.getD p [] = l[p] := by
  rw [List.getD_eq_getElem?_getD, List.getElem?_eq_getElem hp]
  rfl

theorem set_getD_not_mem {t : Table} (hinv : Inv t) {p : Nat}
    (hp : p < t.rows.length) {y : Row} (hne : y ≠ t.rows.getD p []) :
    t.rows.getD p [] ∉ t.rows.set p y := by
  intro hmem
  obtain ⟨q, hq, hqe⟩ := List.getElem_of_mem hmem
  have hql : q < t.rows.length := by simpa using hq
  rw [List.getElem_set] at hqe
  by_cases hqp : p = q
  · rw [if_pos hqp] at hqe
    exact hne hqe
  · rw [if_neg hqp] at hqe
    have hre : t.rows.getD p [] = t.rows[p] := getD_eq_getElem_rows hp
    rw [hre] at hqe
    have hql2 : q < (t.rows.map rowId).length := by simpa using hql
    have hpl2 : p < (t.rows.map rowId).length := by simpa using hp
    have hmr : (t.rows.map rowId)[q] = (t.rows.map rowId)[p] := by
      rw [List.getElem_map, List.getElem_map, hqe]
    have hqp2 : q = p := (List.Nodup.getElem_inj_iff hinv.idsNodup).mp hmr
    exact hqp hqp2.symm

/-- Facts about replacing the row at position `p` by its copy with schema
column `c` rewritten to `nv`. -/
theorem set_row_facts {t : Table} (hinv : Inv t) {p : Nat} (hp : p < t.rows.length)
    {c : Str} {col : Column} (hcol : dget c t.columns = some col) (nv : Value) :
    t.rows.getD p [] ∈ t.rows ∧
    dkeys (dset c nv (t.rows.getD p [])) = dkeys (t.rows.getD p []) ∧
    dget rowIdKey (dset c nv (t.rows.getD p [])) = dget rowIdKey (t.rows.getD p []) ∧
    rowId (dset c nv (t.rows.getD p [])) = rowId (t.rows.getD p []) ∧
    rowVal (dset c nv (t.rows.getD p [])) c = nv ∧
    (∀ c2, c2 ≠ c →
      rowVal (dset c nv (t.rows.getD p [])) c2 = rowVal (t.rows.getD p []) c2) ∧
    (t.rows.set p (dset c nv (t.rows.getD p []))).map rowId = t.rows.map rowId ∧
    (∀ x ∈ t.rows, x ≠ t.rows.getD p [] →
      x ∈ t.rows.set p (dset c nv (t.rows.getD p []))) ∧
    dset c nv (t.rows.getD p []) ∈ t.rows.set p (dset c nv (t.rows.getD p [])) := by
  have hre : t.rows.getD p [] = t.rows[p] := getD_eq_getElem_rows hp
  have hrmem : t.rows.getD p [] ∈ t.rows := hre ▸ List.getElem_mem hp
  have hkc : c ∈ dkeys t.columns := mem_dkeys_of_dget hcol
  have hkr : c ∈ dkeys (t.rows.getD p []) := by
    rw [hinv.rowsKeys _ hrmem]
    exact List.mem_cons_of_mem _ hkc
  have hcne : c ≠ rowIdKey := fun h => hinv.noRowIdCol (h ▸ hkc)
  have hdgid : dget rowIdKey (dset c nv (t.rows.getD p [])) =
      dget rowIdKey (t.rows.getD p []) := dget_dset_ne nv _ (Ne.symm hcne)
  have hrid : rowId (dset c nv (t.rows.getD p [])) = rowId (t.rows.getD p []) := by
    unfold rowId rowVal
    rw [hdgid]
  refine ⟨hrmem, dkeys_dset_of_mem nv hkr, hdgid, hrid, ?_, ?_, ?_, ?_, mem_set_self hp⟩
  · unfold rowVal
    rw [dget_dset_same]
    rfl
  · intro c2 h2
    unfold rowVal
    rw [dget_dset_ne nv _ h2]
  · apply map_set_eq rowId hp
    rw [hrid, hre]
  · intro x hx hne
    exact mem_set_of_mem_ne hx hp hne

/-- A successful `updStep` on a schema column of a well-formed table
preserves the invariant. -/
theorem updStep_inv {t : Table} {p : Nat} {c : Str} {nv : Value} {col : Column}
    {t2 : Table}
    (hinv : Inv t) (hcol : dget c t.columns = some col) (hp : p < t.rows.length)
    (hstep : updStep t p (rowId (t.rows.getD p [])) c nv col = (t2, none)) :
    Inv t2 := by
  rcases updStep_cases t p (rowId (t.rows.getD p [])) c nv col with
    ⟨_, heq⟩ | ⟨hne, t1, ht1, hrest⟩
  · have ht : t2 = t := congrArg Prod.fst (hstep.symm.trans heq)
    rw [ht]
    exact hinv
  rcases hrest with ⟨e, _, heq⟩ | ⟨hck, heq⟩
  · have h2 := hstep.symm.trans heq
    simp at h2
  have h3 : t2 = (let tm : Table := { t1 with
      rows := t1.rows.set p (dset c nv (t.rows.getD p [])) };
      if dhas c tm.indexes then
        setIdx tm c (idxAdd (getIdx tm c) nv (rowId (t.rows.getD p []))) else tm) :=
    congrArg Prod.fst (hstep.symm.trans heq)
  obtain ⟨hrmem, hdk, hdgid, hrid, hvc, hvo, hmap, hmem2, hymem⟩ :=
    set_row_facts hinv hp hcol nv
  have hynr : dset c nv (t.rows.getD p []) ≠ t.rows.getD p [] := by
    intro hyr
    have h5 : dget c (dset c nv (t.rows.getD p []))
        = dget c (t.rows.getD p []) := by rw [hyr]
    rw [dget_dset_same] at h5
    have hkr : c ∈ dkeys (t.rows.getD p []) := by
      rw [hinv.rowsKeys _ hrmem]
      exact List.mem_cons_of_mem _ (mem_dkeys_of_dget hcol)
    obtain ⟨w, hw⟩ := dhas_iff.mp ((dhas_eq_mem_dkeys _ _).mpr hkr)
    rw [hw] at h5
    have hnw : nv = w := Option.some.inj h5
    have hvw : rowVal (t.rows.getD p []) c = w := by
      unfold rowVal
      rw [hw]
      rfl
    rw [hvw, ← hnw, pyEq_refl] at hne
    simp at hne
  have hrnot : t.rows.getD p [] ∉ t.rows.set p (dset c nv (t.rows.getD p [])) :=
    set_getD_not_mem hinv hp hynr
  have hmemrev : ∀ x ∈ t.rows.set p (dset c nv (t.rows.getD p [])),
      x = dset c nv (t.rows.getD p []) ∨ (x ∈ t.rows ∧ x ≠ t.rows.getD p []) := by
    intro x hx
    rcases List.mem_or_eq_of_mem_set hx with h | h
    · right
      refine ⟨h, ?_⟩
      intro hxr
      rw [hxr] at hx
      exact hrnot hx
    · left
      exact h
  by_cases hhas : dhas c t.indexes = true
  · obtain ⟨idx, hgo⟩ := dhas_iff.mp hhas
    have hidx1 : getIdx t c = idx := by
      unfold getIdx
      rw [hgo]
      rfl
    have ht1e : t1 = setIdx t c
        (idxRemove idx (rowVal (t.rows.getD p []) c) (rowId (t.rows.getD p []))) := by
      rw [ht1, if_pos hhas, hidx1]
    rw [ht1e] at hck h3
    rw [getIdx_setIdx_self] at hck
    have hd2 : dhas c (dset c
        (idxRemove idx (rowVal (t.rows.getD p []) c) (rowId (t.rows.getD p [])))
        t.indexes) = true := dhas_dset_self c _ t.indexes
    have hrows2 : t2.rows = t.rows.set p (dset c nv (t.rows.getD p [])) := by
      rw [h3]
      simp [setIdx, getIdx, hd2, -List.getD_eq_getElem?_getD]
    have hcols2 : t2.columns = t.columns := by
      rw [h3]
      simp [setIdx, getIdx, hd2, -List.getD_eq_getElem?_getD]
    have hnext2 : t2.next_row_id = t.next_row_id := by
      rw [h3]
      simp [setIdx, getIdx, hd2, -List.getD_eq_getElem?_getD]
    have hidxs2 : t2.indexes = dset c
        (idxAdd (idxRemove idx (rowVal (t.rows.getD p []) c) (rowId (t.rows.getD p [])))
          nv (rowId (t.rows.getD p [])))
        (dset c (idxRemove idx (rowVal (t.rows.getD p []) c) (rowId (t.rows.getD p [])))
          t.indexes) := by
      rw [h3]
      simp [setIdx, getIdx, hd2, dget_dset_same, -List.getD_eq_getElem?_getD]
    have hgc : dget c t2.indexes = some
        (idxAdd (idxRemove idx (rowVal (t.rows.getD p []) c) (rowId (t.rows.getD p [])))
          nv (rowId (t.rows.getD p []))) := by
      rw [hidxs2]
      exact dget_dset_same _ _ _
    have hgne : ∀ c2, c2 ≠ c → dget c2 t2.indexes = dget c2 t.indexes := by
      intro c2 h2
      rw [hidxs2, dget_dset_ne _ _ h2, dget_dset_ne _ _ h2]
    obtain ⟨col2, hcol2, hcon2⟩ := (hinv.idxIffCon c).mp ⟨idx, hgo⟩
    rw [hcol] at hcol2
    have hc2c : col2 = col := (Option.some.inj hcol2).symm
    rw [hc2c] at hcon2
    have honly2 : ∀ w ids, (w, ids) ∈ idx → ∀ x ∈ ids,
        pyEq x (rowId (t.rows.getD p [])) = true →
        pyEq w (rowVal (t.rows.getD p []) c) = true := by
      intro w ids hm x hx hxr
      obtain ⟨r3, hr3, hid3, hval3⟩ := hinv.noStale c idx hgo w ids hm x hx
      have hr3r : r3 = t.rows.getD p [] :=
        inv_pyEq_rowId hinv hr3 hrmem (by rw [hid3]; exact hxr)
      rw [hr3r] at hval3
      exact pyEq_symm hval3
    have hgone2 : ∀ e2 ∈ idxRemove idx (rowVal (t.rows.getD p []) c)
        (rowId (t.rows.getD p [])), ∀ x ∈ e2.2,
        pyEq x (rowId (t.rows.getD p [])) = false :=
      idxRemove_removes (hinv.keysPW c idx hgo)
        (fun w ids hm => hinv.entryPW c idx hgo w ids hm) honly2
    refine ⟨?_, ?_, ?_, ?_, ?_, ?_, ?_, ?_, ?_, ?_, ?_, ?_⟩
    · rw [hnext2]
      exact hinv.nextPos
    · rw [hcols2]
      exact hinv.colsNodup
    · rw [hcols2]
      exact hinv.noRowIdCol
    · intro c2
      by_cases hc2 : c2 = c
      · subst hc2
        constructor
        · intro _
          rw [hcols2]
          exact ⟨col, hcol, hcon2⟩
        · intro _
          exact ⟨_, hgc⟩
      · rw [hgne c2 hc2, hcols2]
        exact hinv.idxIffCon c2
    · rw [hrows2, hcols2]
      intro x hx
      rcases hmemrev x hx with rfl | ⟨hxt, _⟩
      · rw [hdk, hinv.rowsKeys _ hrmem]
      · exact hinv.rowsKeys x hxt
    · rw [hrows2, hnext2]
      intro x hx
      rcases hmemrev x hx with rfl | ⟨hxt, _⟩
      · obtain ⟨n, hn1, hn2, hn3⟩ := hinv.idsWF _ hrmem
        exact ⟨n, by rw [hdgid]; exact hn1, hn2, hn3⟩
      · exact hinv.idsWF x hxt
    · rw [hrows2, hmap]
      exact hinv.idsNodup
    · intro c2 idx2 hg2
      by_cases hc2 : c2 = c
      · rw [hc2, hgc] at hg2
        have h6 := Option.some.inj hg2
        subst h6
      -- keys of the re-added index: unchanged or the new value appended
        rcases idxAdd_keys
            (idxRemove idx (rowVal (t.rows.getD p []) c) (rowId (t.rows.getD p [])))
            nv (rowId (t.rows.getD p [])) with hk | ⟨hk, hknew⟩
        · rw [hk]
          exact List.Pairwise.sublist (idxRemove_keys_sublist idx _ _)
            (hinv.keysPW c idx hgo)
        · rw [hk]
          apply List.pairwise_append.mpr
          refine ⟨List.Pairwise.sublist (idxRemove_keys_sublist idx _ _)
            (hinv.keysPW c idx hgo), by simp, ?_⟩
          intro a ha b hb
          rw [List.mem_singleton] at hb
          subst hb
          exact hknew a ha
      · rw [hgne c2 hc2] at hg2
        exact hinv.keysPW c2 idx2 hg2
    · intro c2 idx2 hg2 v ids hent
      by_cases hc2 : c2 = c
      · rw [hc2, hgc] at hg2
        have h6 := Option.some.inj hg2
        subst h6
        rcases mem_idxAdd (v, ids) hent with hold | ⟨ids1, hm1, hpe, hap⟩ | ⟨hv, hap⟩
        · obtain ⟨ids0, hm0, hsub0⟩ := mem_idxRemove (v, ids) hold
          exact List.Pairwise.sublist hsub0 (hinv.entryPW c idx hgo v ids0 hm0)
        · replace hap : ids = ids1 ++ [rowId (t.rows.getD p [])] := hap
          replace hm1 : (v, ids1) ∈ idxRemove idx (rowVal (t.rows.getD p []) c)
            (rowId (t.rows.getD p [])) := hm1
          subst hap
          apply List.pairwise_append.mpr
          obtain ⟨ids0, hm0, hsub0⟩ := mem_idxRemove (v, ids1) hm1
          refine ⟨List.Pairwise.sublist hsub0 (hinv.entryPW c idx hgo v ids0 hm0),
            by simp, ?_⟩
          intro a ha b hb
          rw [List.mem_singleton] at hb
          subst hb
          exact hgone2 (v, ids1) hm1 a ha
        · replace hap : ids = [rowId (t.rows.getD p [])] := hap
          subst hap
          simp
      · rw [hgne c2 hc2] at hg2
        exact hinv.entryPW c2 idx2 hg2 v ids hent
    · intro c2 idx2 hg2 v ids hent id hid
      by_cases hc2 : c2 = c
      · rw [hc2, hgc] at hg2
        rw [hc2]
        have h6 := Option.some.inj hg2
        subst h6
        rw [hrows2]
        rcases mem_idxAdd (v, ids) hent with hold | ⟨ids1, hm1, hpe, hap⟩ | ⟨hv, hap⟩
        · obtain ⟨ids0, hm0, hsub0⟩ := mem_idxRemove (v, ids) hold
          obtain ⟨r3, hr3, hid3, hval3⟩ :=
            hinv.noStale c idx hgo v ids0 hm0 id (hsub0.subset hid)
          have hne3 : r3 ≠ t.rows.getD p [] := by
            intro hrr
            have h7 := hgone2 (v, ids) hold id hid
            rw [← hid3, hrr, pyEq_refl] at h7
            simp at h7
          exact ⟨r3, hmem2 r3 hr3 hne3, hid3, hval3⟩
        · replace hpe : pyEq v nv = true := hpe
          replace hap : ids = ids1 ++ [rowId (t.rows.getD p [])] := hap
          replace hm1 : (v, ids1) ∈ idxRemove idx (rowVal (t.rows.getD p []) c)
            (rowId (t.rows.getD p [])) := hm1
          subst hap
          rcases List.mem_append.mp hid with hid1 | hid1
          · obtain ⟨ids0, hm0, hsub0⟩ := mem_idxRemove (v, ids1) hm1
            obtain ⟨r3, hr3, hid3, hval3⟩ :=
              hinv.noStale c idx hgo v ids0 hm0 id (hsub0.subset hid1)
            have hne3 : r3 ≠ t.rows.getD p [] := by
              intro hrr
              have h7 := hgone2 (v, ids1) hm1 id hid1
              rw [← hid3, hrr, pyEq_refl] at h7
              simp at h7
            exact ⟨r3, hmem2 r3 hr3 hne3, hid3, hval3⟩
          · rw [List.mem_singleton] at hid1
            subst hid1
            refine ⟨dset c nv (t.rows.getD p []), hymem, hrid, ?_⟩
            rw [hvc]
            exact pyEq_symm hpe
        · replace hv : v = nv := hv
          replace hap : ids = [rowId (t.rows.getD p [])] := hap
          subst hap
          rw [List.mem_singleton] at hid
          subst hid
          refine ⟨dset c nv (t.rows.getD p []), hymem, hrid, ?_⟩
          rw [hvc, hv]
          exact pyEq_refl nv
      · rw [hgne c2 hc2] at hg2
        rw [hrows2]
        obtain ⟨r3, hr3, hid3, hval3⟩ := hinv.noStale c2 idx2 hg2 v ids hent id hid
        by_cases hrr : r3 = t.rows.getD p []
        · refine ⟨dset c nv (t.rows.getD p []), hymem, ?_, ?_⟩
          · rw [hrid, ← hrr]
            exact hid3
          · rw [hvo c2 hc2, ← hrr]
            exact hval3
        · exact ⟨r3, hmem2 r3 hr3 hrr, hid3, hval3⟩
    · intro c2 idx2 hg2 x hx hnn
      rw [hrows2] at hx
      by_cases hc2 : c2 = c
      · rw [hc2, hgc] at hg2
        rw [hc2] at hnn ⊢
        have h6 := Option.some.inj hg2
        subst h6
        rcases hmemrev x hx with rfl | ⟨hxt, hxr⟩
        · rw [hvc] at hnn ⊢
          rw [hrid, idxFind_add_self _ _ (pyEq_refl nv)]
          exact List.mem_append_right _ (List.mem_singleton.mpr rfl)
        · have hpres := hinv.presence c idx hgo x hxt hnn
          have hne4 : pyEq (rowId x) (rowId (t.rows.getD p [])) = false :=
            inv_rowId_pyEq_false hinv hxt hrmem hxr
          have h8 : rowId x ∈ idxFind
              (idxRemove idx (rowVal (t.rows.getD p []) c) (rowId (t.rows.getD p [])))
              (rowVal x c) := mem_idxFind_remove hpres hne4
          by_cases hpe2 : pyEq (rowVal x c) nv = true
          · rw [idxFind_add_self _ _ hpe2]
            exact List.mem_append_left _ h8
          · have hpe3 : pyEq (rowVal x c) nv = false := by
              cases hb : pyEq (rowVal x c) nv
              · rfl
              · exact absurd hb hpe2
            rw [idxFind_add_other _ _ hpe3]
            exact h8
      · rw [hgne c2 hc2] at hg2
        rcases hmemrev x hx with rfl | ⟨hxt, _⟩
        · rw [hvo c2 hc2] at hnn ⊢
          rw [hrid]
          exact hinv.presence c2 idx2 hg2 _ hrmem hnn
        · exact hinv.presence c2 idx2 hg2 x hxt hnn
    · intro c2 idx2 hg2 v ids hent hvn
      by_cases hc2 : c2 = c
      · rw [hc2, hgc] at hg2
        have h6 := Option.some.inj hg2
        subst h6
        rcases mem_idxAdd (v, ids) hent with hold | ⟨ids1, hm1, hpe, hap⟩ | ⟨hv, hap⟩
        · obtain ⟨ids0, hm0, hsub0⟩ := mem_idxRemove (v, ids) hold
          exact le_trans (List.Sublist.length_le hsub0)
            (hinv.uniqEntry c idx hgo v ids0 hm0 hvn)
        · replace hpe : pyEq v nv = true := hpe
          replace hap : ids = ids1 ++ [rowId (t.rows.getD p [])] := hap
          replace hm1 : (v, ids1) ∈ idxRemove idx (rowVal (t.rows.getD p []) c)
            (rowId (t.rows.getD p [])) := hm1
          have hnvnn : nv ≠ NullV := by
            intro hnull
            rw [hnull] at hpe
            exact hvn (pyEq_null_right hpe)
          have hfind : idxFind (idxRemove idx (rowVal (t.rows.getD p []) c)
              (rowId (t.rows.getD p []))) nv = [] :=
            constraintCheck_none_find hcon2 hnvnn hck
          have hpw : ((idxRemove idx (rowVal (t.rows.getD p []) c)
              (rowId (t.rows.getD p []))).map Prod.fst).Pairwise
              (fun a b => pyEq a b = false) :=
            List.Pairwise.sublist (idxRemove_keys_sublist idx _ _)
              (hinv.keysPW c idx hgo)
          have h9 : ids1 = [] := by
            have h10 := idxFind_of_entry hpw hm1 hpe
            rw [hfind] at h10
            exact h10.symm
          rw [hap, h9]
          simp
        · replace hap : ids = [rowId (t.rows.getD p [])] := hap
          rw [hap]
          simp
      · rw [hgne c2 hc2] at hg2
        exact hinv.uniqEntry c2 idx2 hg2 v ids hent hvn
  · have hgnone : dget c t.indexes = none := by
      cases hd : dget c t.indexes with
      | none => rfl
      | some i2 => exact absurd (dhas_iff.mpr ⟨i2, hd⟩) hhas
    have ht1e : t1 = t := by
      rw [ht1, if_neg hhas]
    rw [ht1e] at h3
    have hrows2 : t2.rows = t.rows.set p (dset c nv (t.rows.getD p [])) := by
      rw [h3]
      simp [setIdx, hhas, -List.getD_eq_getElem?_getD]
    have hcols2 : t2.columns = t.columns := by
      rw [h3]
      simp [setIdx, hhas, -List.getD_eq_getElem?_getD]
    have hnext2 : t2.next_row_id = t.next_row_id := by
      rw [h3]
      simp [setIdx, hhas, -List.getD_eq_getElem?_getD]
    have hidxs2 : t2.indexes = t.indexes := by
      rw [h3]
      simp [setIdx, hhas, -List.getD_eq_getElem?_getD]
    have hcne2 : ∀ (c2 : Str) (idx2 : Index), dget c2 t.indexes = some idx2 →
        c2 ≠ c := by
      intro c2 idx2 hg2 h
      rw [h, hgnone] at hg2
      cases hg2
    refine ⟨?_, ?_, ?_, ?_, ?_, ?_, ?_, ?_, ?_, ?_, ?_, ?_⟩
    · rw [hnext2]
      exact hinv.nextPos
    · rw [hcols2]
      exact hinv.colsNodup
    · rw [hcols2]
      exact hinv.noRowIdCol
    · intro c2
      rw [hidxs2, hcols2]
      exact hinv.idxIffCon c2
    · rw [hrows2, hcols2]
      intro x hx
      rcases hmemrev x hx with rfl | ⟨hxt, _⟩
      · rw [hdk, hinv.rowsKeys _ hrmem]
      · exact hinv.rowsKeys x hxt
    · rw [hrows2, hnext2]
      intro x hx
      rcases hmemrev x hx with rfl | ⟨hxt, _⟩
      · obtain ⟨n, hn1, hn2, hn3⟩ := hinv.idsWF _ hrmem
        exact ⟨n, by rw [hdgid]; exact hn1, hn2, hn3⟩
      · exact hinv.idsWF x hxt
    · rw [hrows2, hmap]
      exact hinv.idsNodup
    · intro c2 idx2 hg2
      rw [hidxs2] at hg2
      exact hinv.keysPW c2 idx2 hg2
    · intro c2 idx2 hg2 v ids hent
      rw [hidxs2] at hg2
      exact hinv.entryPW c2 idx2 hg2 v ids hent
    · intro c2 idx2 hg2 v ids hent id hid
      rw [hidxs2] at hg2
      rw [hrows2]
      obtain ⟨r3, hr3, hid3, hval3⟩ := hinv.noStale c2 idx2 hg2 v ids hent id hid
      by_cases hrr : r3 = t.rows.getD p []
      · refine ⟨dset c nv (t.rows.getD p []), hymem, ?_, ?_⟩
        · rw [hrid, ← hrr]
          exact hid3
        · rw [hvo c2 (hcne2 c2 idx2 hg2), ← hrr]
          exact hval3
      · exact ⟨r3, hmem2 r3 hr3 hrr, hid3, hval3⟩
    · intro c2 idx2 hg2 x hx hnn
      rw [hidxs2] at hg2
      rw [hrows2] at hx
      rcases hmemrev x hx with rfl | ⟨hxt, _⟩
      · rw [hvo c2 (hcne2 c2 idx2 hg2)] at hnn ⊢
        rw [hrid]
        exact hinv.presence c2 idx2 hg2 _ hrmem hnn
      · exact hinv.presence c2 idx2 hg2 x hxt hnn
    · intro c2 idx2 hg2 v ids hent hvn
      rw [hidxs2] at hg2
      exact hinv.uniqEntry c2 idx2 hg2 v ids hent hvn

theorem updateCols_inv (us : Values) : ∀ (t : Table) (p : Nat) (rid : Value)
    {t2 : Table} {u : Unit},
    Inv t → p < t.rows.length → rid = rowId (t.rows.getD p []) →
    updateCols t p rid us = (t2, Except.ok u) → Inv t2 := by
  induction us with
  | nil =>
    intro t p rid t2 u hinv hp hr h
    have ht : t = t2 := congrArg Prod.fst h
    exact ht ▸ hinv
  | cons uu rest ih =>
    intro t p rid t2 u hinv hp hr h
    rcases uu with ⟨c, nv⟩
    cases hcol : dget c t.columns with
    | none =>
      rw [updateCols_cons_none hcol] at h
      exact ih t p rid hinv hp hr h
    | some col =>
      rcases hstep : updStep t p rid c nv col with ⟨tm, res⟩
      cases res with
      | some e =>
        rw [updateCols_cons_err hcol hstep] at h
        simp at h
      | none =>
        rw [updateCols_cons_ok hcol hstep] at h
        subst hr
        have hinv1 : Inv tm := updStep_inv hinv hcol hp hstep
        have hsh := updStep_shape t p (rowId (t.rows.getD p [])) c nv col
        rw [hstep] at hsh
        have hp1 : p < tm.rows.length := by
          rw [hsh.2.2]
          exact hp
        have hcne : c ≠ rowIdKey := fun hh =>
          hinv.noRowIdCol (hh ▸ mem_dkeys_of_dget hcol)
        have hid := updStep_rowid t p (rowId (t.rows.getD p [])) c nv col hcne p
        rw [hstep] at hid
        have hr1 : rowId (t.rows.getD p []) = rowId (tm.rows.getD p []) := by
          unfold rowId rowVal
          rw [hid]
        exact ih tm p _ hinv1 hp1 hr1 h

theorem updateRowsAux_inv (ps : List Nat) :
    ∀ (t : Table) (upds : Values) (count : Int) {t2 : Table} {n : Int},
    Inv t → (∀ q ∈ ps, q < t.rows.length) →
    updateRowsAux t ps upds count = (t2, Except.ok n) → Inv t2 := by
  induction ps with
  | nil =>
    intro t upds count t2 n hinv _ h
    have ht : t = t2 := congrArg Prod.fst h
    exact ht ▸ hinv
  | cons p ps2 ih =>
    intro t upds count t2 n hinv hps h
    cases hty : checkTypes t upds with
    | error e =>
      rw [updateRowsAux_cons_tyerr hty] at h
      simp at h
    | ok u =>
      rcases hcols : updateCols t p (rowId (t.rows.getD p [])) upds with ⟨tm, res⟩
      cases res with
      | error e =>
        rw [updateRowsAux_cons_err hty hcols] at h
        simp at h
      | ok u2 =>
        rw [updateRowsAux_cons_ok hty hcols] at h
        have hp : p < t.rows.length := hps p (List.mem_cons_self _ _)
        have hinv1 : Inv tm :=
          updateCols_inv upds t p (rowId (t.rows.getD p [])) hinv hp rfl hcols
        have hsh := updateCols_shape upds t p (rowId (t.rows.getD p []))
        rw [hcols] at hsh
        have hps1 : ∀ q ∈ ps2, q < tm.rows.length := by
          intro q hq
          rw [hsh.2.2]
          exact hps q (List.mem_cons_of_mem _ hq)
        exact ih tm upds (count + 1) hinv1 hps1 h

theorem update_rows_inv {t : Table} (conds upds : Values) {t2 : Table} {n : Int}
    (hinv : Inv t) (h : update_rows t conds upds = (t2, Except.ok n)) : Inv t2 := by
  unfold update_rows at h
  apply updateRowsAux_inv (matchedPositions t conds) t upds 0 hinv _ h
  intro q hq
  exact matchedPositions_mem_lt hq

/-- Every state reachable by successful operations satisfies the invariant. -/
theorem reachOk_inv {cols : List Column} {t : Table} (h : ReachOk cols t) :
    Inv t := by
  induction h with
  | create nm hwf => exact mkTable_inv nm cols hwf
  | insertOk _ hnd _ hins ih => exact insert_ok_inv ih hnd hins
  | insertErr hfalse _ _ => cases hfalse
  | updateOk _ _ hupd ih => exact update_rows_inv _ _ ih hupd
  | updateErr hfalse _ _ _ => cases hfalse
  | @delete t0 t1 conds n _ hdel ih =>
    have h2 := delete_rows_inv conds ih
    rw [hdel] at h2
    exact h2

theorem dget_some_mem {α : Type} {k : Str} {d : List (Str × α)} {v : α}
    (h : dget k d = some v) : (k, v) ∈ d := by
  induction d with
  | nil => cases h
  | cons e rest ih =>
    rcases e with ⟨ek, ev⟩
    by_cases he : ek = k
    · subst he
      simp only [dget, if_pos rfl] at h
      have : ev = v := Option.some.inj h
      subst this
      exact List.mem_cons_self _ _
    · simp only [dget, if_neg he] at h
      exact List.mem_cons_of_mem _ (ih h)

theorem constraintCheck_none_pk_nonnull {col : Column} {c : Str} {v : Value}
    {idx : Index} (hpk : col.constraint = Constraint.PRIMARY_KEY)
    (h : constraintCheck col c v idx = none) : v ≠ NullV := by
  intro hnull
  unfold constraintCheck at h
  rw [if_pos hpk, if_pos hnull] at h
  exact Option.noConfusion h

/-- Any `updStep` outcome keeps every primary-key column non-null: the null
check runs before the row is mutated. -/
theorem updStep_pkinv {t : Table} {p : Nat} {rid : Value} {c : Str} {nv : Value}
    {col : Column} {t2 : Table} {res : Option Str}
    (hpk : PKInv t) (hcol : dget c t.columns = some col) (hp : p < t.rows.length)
    (hstep : updStep t p rid c nv col = (t2, res)) : PKInv t2 := by
  rcases updStep_cases t p rid c nv col with ⟨_, heq⟩ | ⟨hne, t1, ht1, hrest⟩
  · have ht : t2 = t := congrArg Prod.fst (hstep.symm.trans heq)
    rw [ht]
    exact hpk
  · have h1 : t1.rows = t.rows ∧ t1.columns = t.columns := by
      rw [ht1]
      by_cases hha : dhas c t.indexes = true <;> simp [hha, setIdx]
    rcases hrest with ⟨e, _, heq⟩ | ⟨hck, heq⟩
    · have h2 : t2 = t1 := congrArg Prod.fst (hstep.symm.trans heq)
      rw [h2]
      intro r hr c2 col2 hcol2 hpk2
      rw [h1.2] at hcol2
      rw [h1.1] at hr
      exact hpk r hr c2 col2 hcol2 hpk2
    · have h3 : t2 = (let tm : Table := { t1 with
          rows := t1.rows.set p (dset c nv (t.rows.getD p [])) };
          if dhas c tm.indexes then
            setIdx tm c (idxAdd (getIdx tm c) nv rid) else tm) :=
        congrArg Prod.fst (hstep.symm.trans heq)
      have hrows : t2.rows = t.rows.set p (dset c nv (t.rows.getD p [])) := by
        rw [h3]
        by_cases hha2 : dhas c ({ t1 with
            rows := t1.rows.set p (dset c nv (t.rows.getD p [])) } : Table).indexes
            = true <;>
          simp [hha2, setIdx, h1.1, -List.getD_eq_getElem?_getD]
      have hcols : t2.columns = t.columns := by
        rw [h3]
        by_cases hha2 : dhas c ({ t1 with
            rows := t1.rows.set p (dset c nv (t.rows.getD p [])) } : Table).indexes
            = true <;>
          simp [hha2, setIdx, h1.2, -List.getD_eq_getElem?_getD]
      intro r hr c2 col2 hcol2 hpk2
      rw [hcols] at hcol2
      rw [hrows] at hr
      rcases List.mem_or_eq_of_mem_set hr with h4 | h4
      · exact hpk r h4 c2 col2 hcol2 hpk2
      · subst h4
        have hrmem : t.rows.getD p [] ∈ t.rows :=
          getD_eq_getElem_rows hp ▸ List.getElem_mem hp
        by_cases hc2 : c2 = c
        · subst hc2
          rw [hcol] at hcol2
          have hcc : col = col2 := Option.some.inj hcol2
          have hnn : nv ≠ NullV :=
            constraintCheck_none_pk_nonnull (hcc ▸ hpk2) hck
          have hv : rowVal (dset c2 nv (t.rows.getD p [])) c2 = nv := by
            unfold rowVal
            rw [dget_dset_same]
            rfl
          rw [hv]
          exact hnn
        · have hv : rowVal (dset c nv (t.rows.getD p [])) c2 =
              rowVal (t.rows.getD p []) c2 := by
            unfold rowVal
            rw [dget_dset_ne nv _ hc2]
          rw [hv]
          exact hpk _ hrmem c2 col2 hcol2 hpk2

theorem updateCols_pkinv (us : Values) : ∀ (t : Table) (p : Nat) (rid : Value)
    {t2 : Table} {res : Except Str Unit},
    PKInv t → p < t.rows.length → updateCols t p rid us = (t2, res) → PKInv t2 := by
  induction us with
  | nil =>
    intro t p rid t2 res hpk hp h
    have ht : t = t2 := congrArg Prod.fst h
    exact ht ▸ hpk
  | cons uu rest ih =>
    intro t p rid t2 res hpk hp h
    rcases uu with ⟨c, nv⟩
    cases hcol : dget c t.columns with
    | none =>
      rw [updateCols_cons_none hcol] at h
      exact ih t p rid hpk hp h
    | some col =>
      rcases hstep : updStep t p rid c nv col with ⟨tm, res2⟩
      have hpk1 : PKInv tm := updStep_pkinv hpk hcol hp hstep
      have hsh := updStep_shape t p rid c nv col
      rw [hstep] at hsh
      cases res2 with
      | some e =>
        rw [updateCols_cons_err hcol hstep] at h
        have ht : tm = t2 := congrArg Prod.fst h
        exact ht ▸ hpk1
      | none =>
        rw [updateCols_cons_ok hcol hstep] at h
        have hp1 : p < tm.rows.length := by
          rw [hsh.2.2]
          exact hp
        exact ih tm p rid hpk1 hp1 h

theorem updateRowsAux_pkinv (ps : List Nat) :
    ∀ (t : Table) (upds : Values) (count : Int) {t2 : Table} {res : Except Str Int},
    PKInv t → (∀ q ∈ ps, q < t.rows.length) →
    updateRowsAux t ps upds count = (t2, res) → PKInv t2 := by
  induction ps with
  | nil =>
    intro t upds count t2 res hpk _ h
    have ht : t = t2 := congrArg Prod.fst h
    exact ht ▸ hpk
  | cons p ps2 ih =>
    intro t upds count t2 res hpk hps h
    cases hty : checkTypes t upds with
    | error e =>
      rw [updateRowsAux_cons_tyerr hty] at h
      have ht : t = t2 := congrArg Prod.fst h
      exact ht ▸ hpk
    | ok u =>
      have hp : p < t.rows.length := hps p (List.mem_cons_self _ _)
      rcases hcols : updateCols t p (rowId (t.rows.getD p [])) upds with ⟨tm, res2⟩
      have hpk1 : PKInv tm :=
        updateCols_pkinv upds t p (rowId (t.rows.getD p [])) hpk hp hcols
      have hsh := updateCols_shape upds t p (rowId (t.rows.getD p []))
      rw [hcols] at hsh
      cases res2 with
      | error e =>
        rw [updateRowsAux_cons_err hty hcols] at h
        have ht : tm = t2 := congrArg Prod.fst h
        exact ht ▸ hpk1
      | ok u2 =>
        rw [updateRowsAux_cons_ok hty hcols] at h
        have hps1 : ∀ q ∈ ps2, q < tm.rows.length := by
          intro q hq
          rw [hsh.2.2]
          exact hps q (List.mem_cons_of_mem _ hq)
        exact ih tm upds (count + 1) hpk1 hps1 h

theorem update_rows_pkinv {t : Table} (conds upds : Values)
    (hpk : PKInv t) : PKInv (update_rows t conds upds).1 := by
  unfold update_rows
  rcases h : updateRowsAux t (matchedPositions t conds) upds 0 with ⟨tm, res⟩
  exact updateRowsAux_pkinv (matchedPositions t conds) t upds 0 hpk
    (fun q hq => matchedPositions_mem_lt hq) h

theorem deleteRowsAux_cols_sub : ∀ (todo : List Row) (t : Table) (count : Int),
    (deleteRowsAux t todo count).1.columns = t.columns ∧
    (∀ x ∈ (deleteRowsAux t todo count).1.rows, x ∈ t.rows) := by
  intro todo
  induction todo with
  | nil => intro t count; exact ⟨rfl, fun x hx => hx⟩
  | cons r rest ih =>
    intro t count
    show (deleteRowsAux (deleteOneRow t r) rest (count + 1)).1.columns = t.columns ∧ _
    obtain ⟨h1, h2⟩ := ih (deleteOneRow t r) (count + 1)
    refine ⟨h1.trans rfl, ?_⟩
    intro x hx
    exact (removeFirstRow_sublist t.rows r).subset (h2 x hx)

/-- The schema-map and primary-key facts carried through any operation
sequence (raises allowed) whose inserts always supply the primary keys. -/
theorem reach_pk_columns {cols : List Column} {t : Table}
    (h : Reach cols true (pkSupplied cols) t) :
    WFcols cols ∧ t.columns = cols.map (fun c => (c.name, c)) ∧ PKInv t := by
  induction h with
  | create nm hwf =>
    refine ⟨hwf, mkTable_columns nm cols hwf.1, ?_⟩
    intro r hr
    exact absurd hr (List.not_mem_nil r)
  | @insertOk t0 t1 vs rid _ hnd hins heq ih =>
    obtain ⟨hwf, hcols, hpk⟩ := ih
    obtain ⟨_, hcols1, _, hrows1, _, _⟩ := insert_row_ok _ _ _ _ heq
    obtain ⟨hty, hcks⟩ := insert_row_ok_checks heq
    refine ⟨hwf, by rw [hcols1, hcols], ?_⟩
    intro r hr c col2 hcol2 hpkc
    rw [hcols1] at hcol2
    rw [hrows1] at hr
    rcases List.mem_append.mp hr with hr2 | hr2
    · exact hpk r hr2 c col2 hcol2 hpkc
    · rw [List.mem_singleton] at hr2
      subst hr2
      have hdk : dkeys t0.columns = cols.map Column.name := by
        rw [hcols]
        unfold dkeys
        rw [List.map_map]
        rfl
      have hndk : (dkeys t0.columns).Nodup := by
        rw [hdk]
        exact hwf.1
      have hrk : rowIdKey ∉ dkeys t0.columns := by
        rw [hdk]
        exact hwf.2
      have hcin : c ∈ dkeys t0.columns := mem_dkeys_of_dget hcol2
      have hval := buildRow_val t0 vs hndk hrk hcin
      have hcol2m : dget c (cols.map (fun c => (c.name, c))) = some col2 := by
        rw [← hcols]
        exact hcol2
      obtain ⟨hcolmem, hcname⟩ := (dget_map_pair Column.name c hwf.1 col2).mp hcol2m
      have hsupc : c ∈ vs.map Prod.fst := by
        rw [← hcname]
        exact hins col2 hcolmem hpkc
      obtain ⟨v, hv⟩ : ∃ v, dget c vs = some v :=
        dhas_iff.mp ((dhas_eq_mem_dkeys c vs).mpr hsupc)
      have hchk := insertCheckConstraints_ok_each hcks (c, v) (dget_some_mem hv)
        col2 hcol2
      have hnn : v ≠ NullV := constraintCheck_none_pk_nonnull hpkc hchk
      have hbv : rowVal (buildRow t0 vs) c = v := by
        unfold rowVal
        rw [hval, hv]
        rfl
      rw [hbv]
      exact hnn
  | @insertErr t0 t1 vs e _ _ heq ih =>
    obtain ⟨hwf, hcols, hpk⟩ := ih
    have hstate : (insert_row t0 vs).1 = t0 :=
      insert_row_error_state t0 vs (by rw [heq])
    have ht : t1 = t0 := (congrArg Prod.fst heq).symm.trans hstate
    rw [ht]
    exact ⟨hwf, hcols, hpk⟩
  | @updateOk t0 t1 conds upds n _ hnd heq ih =>
    obtain ⟨hwf, hcols, hpk⟩ := ih
    have hsh := updateRowsAux_shape (matchedPositions t0 conds) t0 upds 0
    have ht : t1 = (update_rows t0 conds upds).1 := (congrArg Prod.fst heq).symm
    refine ⟨hwf, ?_, ?_⟩
    · rw [ht]
      show (updateRowsAux t0 (matchedPositions t0 conds) upds 0).1.columns = _
      rw [hsh.1, hcols]
    · rw [ht]
      exact update_rows_pkinv conds upds hpk
  | @updateErr t0 t1 conds upds e _ _ hnd heq ih =>
    obtain ⟨hwf, hcols, hpk⟩ := ih
    have hsh := updateRowsAux_shape (matchedPositions t0 conds) t0 upds 0
    have ht : t1 = (update_rows t0 conds upds).1 := (congrArg Prod.fst heq).symm
    refine ⟨hwf, ?_, ?_⟩
    · rw [ht]
      show (updateRowsAux t0 (matchedPositions t0 conds) upds 0).1.columns = _
      rw [hsh.1, hcols]
    · rw [ht]
      exact update_rows_pkinv conds upds hpk
  | @delete t0 t1 conds n _ heq ih =>
    obtain ⟨hwf, hcols, hpk⟩ := ih
    obtain ⟨h1, h2⟩ := deleteRowsAux_cols_sub (find_rows t0 conds) t0 0
    have ht : t1 = (delete_rows t0 conds).1 := (congrArg Prod.fst heq).symm
    refine ⟨hwf, ?_, ?_⟩
    · rw [ht]
      show (deleteRowsAux t0 (find_rows t0 conds) 0).1.columns = _
      rw [h1, hcols]
    · rw [ht]
      intro r hr c col2 hcol2 hpkc
      have hr2 : r ∈ t0.rows := by
        apply h2
        exact hr
      have hcol3 : dget c t0.columns = some col2 := by
        have hc4 : (delete_rows t0 conds).1.columns = t0.columns := h1
        rw [hc4] at hcol2
        exact hcol2
      exact hpk r hr2 c col2 hcol3 hpkc

/-- C2 (amended to successful operations and non-null values): in any table
state reached by successful insert/update/delete calls on a fresh table, for
every indexed column, every live row holding a non-null value in it has its
identifier in the index's entry for that value, and every identifier stored
in the index belongs to a live row whose current value `==`-matches the
entry's key (no stale entries). -/
theorem C2_index_consistency {cols : List Column} {t : Table}
    (h : ReachOk cols t) :
    ∀ c idx, dget c t.indexes = some idx →
      (∀ r ∈ t.rows, rowVal r c ≠ Value.NullV →
        rowId r ∈ idxFind idx (rowVal r c)) ∧
      (∀ v ids, (v, ids) ∈ idx → ∀ id ∈ ids,
        ∃ r ∈ t.rows, rowId r = id ∧ pyEq (rowVal r c) v = true) := by
  have hinv := reachOk_inv h
  intro c idx hg
  exact ⟨hinv.presence c idx hg, hinv.noStale c idx hg⟩

theorem C2_index_consistency_witness :
    rowId (exTwoRows.rows.getD 0 []) ∈
      idxFind [(Value.IntV 10, [Value.IntV 1]), (Value.IntV 20, [Value.IntV 2])]
        (rowVal (exTwoRows.rows.getD 0 []) "u".toList) := by
  have hreach : ReachOk [colIntPK "pk".toList, colIntU "u".toList] exTwoRows :=
    Reach.insertOk
      (Reach.insertOk (Reach.create "t".toList ⟨by decide, by decide⟩)
        (by decide) True.intro
        (rfl : insert_row tabPKU
            [("pk".toList, Value.IntV 1), ("u".toList, Value.IntV 10)] =
          ((insert_row tabPKU
            [("pk".toList, Value.IntV 1), ("u".toList, Value.IntV 10)]).1,
            Except.ok 1)))
      (by decide) True.intro
      (rfl : insert_row (insert_row tabPKU
          [("pk".toList, Value.IntV 1), ("u".toList, Value.IntV 10)]).1
          [("pk".toList, Value.IntV 2), ("u".toList, Value.IntV 20)] =
        (exTwoRows, Except.ok 2))
  have h0 : 0 < exTwoRows.rows.length := by decide
  have hmem : exTwoRows.rows.getD 0 [] ∈ exTwoRows.rows :=
    getD_eq_getElem_rows h0 ▸ List.getElem_mem h0
  exact (C2_index_consistency hreach "u".toList
      [(Value.IntV 10, [Value.IntV 1]), (Value.IntV 20, [Value.IntV 2])] rfl).1
    (exTwoRows.rows.getD 0 []) hmem (by decide)

/-- C3 (amended to successful operations): in any table state reached by
successful insert/update/delete calls on a fresh table, two live rows whose
values in a PRIMARY_KEY or UNIQUE column are `==`-equal and non-null are the
same row. -/
theorem C3_uniqueness {cols : List Column} {t : Table} (h : ReachOk cols t)
    {c : Str} {col : Column} (hcol : dget c t.columns = some col)
    (hcon : col.constraint = Constraint.PRIMARY_KEY ∨
      col.constraint = Constraint.UNIQUE)
    {r1 r2 : Row} (h1 : r1 ∈ t.rows) (h2 : r2 ∈ t.rows)
    (hn1 : rowVal r1 c ≠ Value.NullV)
    (heq : pyEq (rowVal r1 c) (rowVal r2 c) = true) : r1 = r2 := by
  have hinv := reachOk_inv h
  obtain ⟨idx, hgo⟩ := (hinv.idxIffCon c).mpr ⟨col, hcol, hcon⟩
  have hn2 : rowVal r2 c ≠ Value.NullV := by
    intro hnull
    rw [hnull] at heq
    exact hn1 (pyEq_null_right heq)
  have hp1 := hinv.presence c idx hgo r1 h1 hn1
  have hp2 := hinv.presence c idx hgo r2 h2 hn2
  rw [← idxFind_congr idx heq] at hp2
  have hne : idxFind idx (rowVal r1 c) ≠ [] := by
    intro hnil
    rw [hnil] at hp1
    cases hp1
  obtain ⟨k, hent, hk⟩ := idxFind_mem_entry hne
  have hknn : k ≠ Value.NullV := by
    intro hknull
    rw [hknull] at hk
    exact hn1 (pyEq_null_left hk)
  have hlen := hinv.uniqEntry c idx hgo k _ hent hknn
  apply inv_rowId_inj hinv h1 h2
  rcases hfind : idxFind idx (rowVal r1 c) with _ | ⟨x, rest⟩
  · rw [hfind] at hp1
    cases hp1
  · rw [hfind] at hp1 hp2 hlen
    have hrnil : rest = [] := by
      cases rest with
      | nil => rfl
      | cons b bs =>
        rw [List.length_cons, List.length_cons] at hlen
        omega
    subst hrnil
    rw [List.mem_singleton] at hp1 hp2
    rw [hp1, hp2]

theorem C3_uniqueness_witness :
    exTwoRows.rows.getD 0 [] = exTwoRows.rows.getD 0 [] := by
  have hreach : ReachOk [colIntPK "pk".toList, colIntU "u".toList] exTwoRows :=
    Reach.insertOk
      (Reach.insertOk (Reach.create "t".toList ⟨by decide, by decide⟩)
        (by decide) True.intro
        (rfl : insert_row tabPKU
            [("pk".toList, Value.IntV 1), ("u".toList, Value.IntV 10)] =
          ((insert_row tabPKU
            [("pk".toList, Value.IntV 1), ("u".toList, Value.IntV 10)]).1,
            Except.ok 1)))
      (by decide) True.intro
      (rfl : insert_row (insert_row tabPKU
          [("pk".toList, Value.IntV 1), ("u".toList, Value.IntV 10)]).1
          [("pk".toList, Value.IntV 2), ("u".toList, Value.IntV 20)] =
        (exTwoRows, Except.ok 2))
  have h0 : 0 < exTwoRows.rows.length := by decide
  have hmem : exTwoRows.rows.getD 0 [] ∈ exTwoRows.rows :=
    getD_eq_getElem_rows h0 ▸ List.getElem_mem h0
  exact @C3_uniqueness [colIntPK "pk".toList, colIntU "u".toList] exTwoRows hreach
    ("u".toList) (colIntU "u".toList) rfl (Or.inr rfl)
    (exTwoRows.rows.getD 0 []) (exTwoRows.rows.getD 0 []) hmem hmem
    (by decide) (by decide)

/-- C4 (amended: every insert supplies every PRIMARY_KEY column): over any
operation sequence — raising calls allowed — in which each insert's value
dict names every primary-key column, every PRIMARY_KEY column holds a
non-null value in every live row. -/
theorem C4_pk_nonnull {cols : List Column} {t : Table}
    (h : Reach cols true (pkSupplied cols) t) : PKInv t :=
  (reach_pk_columns h).2.2

theorem C4_pk_nonnull_witness :
    rowVal (exTwoRows.rows.getD 0 []) "pk".toList ≠ Value.NullV := by
  have hreach : Reach [colIntPK "pk".toList, colIntU "u".toList] true
      (pkSupplied [colIntPK "pk".toList, colIntU "u".toList]) exTwoRows :=
    Reach.insertOk
      (Reach.insertOk (Reach.create "t".toList ⟨by decide, by decide⟩)
        (by decide) (by unfold pkSupplied; decide)
        (rfl : insert_row tabPKU
            [("pk".toList, Value.IntV 1), ("u".toList, Value.IntV 10)] =
          ((insert_row tabPKU
            [("pk".toList, Value.IntV 1), ("u".toList, Value.IntV 10)]).1,
            Except.ok 1)))
      (by decide) (by unfold pkSupplied; decide)
      (rfl : insert_row (insert_row tabPKU
          [("pk".toList, Value.IntV 1), ("u".toList, Value.IntV 10)]).1
          [("pk".toList, Value.IntV 2), ("u".toList, Value.IntV 20)] =
        (exTwoRows, Except.ok 2))
  have h0 : 0 < exTwoRows.rows.length := by decide
  have hmem : exTwoRows.rows.getD 0 [] ∈ exTwoRows.rows :=
    getD_eq_getElem_rows h0 ▸ List.getElem_mem h0
  exact C4_pk_nonnull hreach (exTwoRows.rows.getD 0 []) hmem "pk".toList
    (colIntPK "pk".toList) rfl rfl

end MiniRdbms
